import Mathlib

/-!
Verification development for the `gemini_ask` automation module
(`gemini_ask/gemini_automation.py`).

The Python functions are shallowly embedded as executable Lean functions over
`List Char` (a Python `str` is modelled as its list of characters; `String.data`
converts Lean string literals).  Reads performed against the remote DOM over
the DevTools protocol are modelled by passing the observed values explicitly:
the walked ancestor chain, the polled response texts, and the incoming
message stream are arguments of the corresponding functions.

Several scanning functions (`re.sub(r'\s+', ' ', ·)`, `str.split()`,
`str.replace`, `str.count`) consume a variable number of characters per step,
so they are written with an explicit fuel argument that is always instantiated
with the length of the scanned list; fuel-irrelevance lemmas recover the
natural unfolding equations.
-/

/-- Whitespace test used to model Python's `\s` and `str.strip()`
(ASCII whitespace, as recognised by `Char.isWhitespace`). -/
def wsChar (c : Char) : Bool := c.isWhitespace

/-- The left half of Python `str.strip()`: drop leading whitespace. -/
def lstripL (s : List Char) : List Char := s.dropWhile wsChar

/-- The right half of Python `str.strip()`: drop trailing whitespace. -/
def rstripL (s : List Char) : List Char := (s.reverse.dropWhile wsChar).reverse

/-- Python `str.strip()`. -/
def stripL (s : List Char) : List Char := rstripL (lstripL s)

/-- Python `str.lower()` (ASCII model). -/
def lowerL (s : List Char) : List Char := s.map Char.toLower

/-- Fuel-indexed body of `re.sub(r'\s+', ' ', ·)`: every maximal whitespace
run is replaced by a single space.  The fuel only forces structural
termination; `collapseWs` supplies `s.length`, which always suffices. -/
def collapseGo : Nat → List Char → List Char
  | 0, _ => []
  | _, [] => []
  | fuel + 1, c :: cs =>
    if wsChar c then ' ' :: collapseGo fuel (cs.dropWhile wsChar)
    else c :: collapseGo fuel cs

/-- `re.sub(r'\s+', ' ', s)`. -/
def collapseWs (s : List Char) : List Char := collapseGo s.length s

/-- Fuel-indexed body of Python `str.split()`: maximal runs of
non-whitespace characters, whitespace acting as separator. -/
def wordsGo : Nat → List Char → List (List Char)
  | 0, _ => []
  | _, [] => []
  | fuel + 1, c :: cs =>
    if wsChar c then wordsGo fuel cs
    else (c :: cs.takeWhile (fun d => !wsChar d)) :: wordsGo fuel (cs.dropWhile (fun d => !wsChar d))

/-- Python `s.split()` (split on whitespace runs, no empty fields). -/
def wordsL (s : List Char) : List (List Char) := wordsGo s.length s

/-- Interleave single spaces between words: `' '.join(ws)`.  This is also the
normal form of `collapseWs (stripL s)` (see `collapse_strip_eq_join`). -/
def joinWordsL : List (List Char) → List Char
  | [] => []
  | w :: ws => w ++ (if ws.isEmpty then [] else ' ' :: joinWordsL ws)

/-- Python substring test `pat in s`. -/
def containsSubL (pat s : List Char) : Bool :=
  (List.range (s.length + 1)).any fun i => pat.isPrefixOf (s.drop i)

/-- Python `any(char.isdigit() for char in s)` (ASCII model). -/
def containsDigitL (s : List Char) : Bool := s.any Char.isDigit

/-- Python `s.endswith(suffix)`. -/
def endsWithL (suffix s : List Char) : Bool :=
  decide (s.drop (s.length - suffix.length) = suffix)

/-- Fuel-indexed body of Python `s.replace(pat, '')` (remove every
non-overlapping occurrence, scanning left to right). -/
def removeAllGo (pat : List Char) : Nat → List Char → List Char
  | 0, _ => []
  | _, [] => []
  | fuel + 1, c :: cs =>
    if !pat.isEmpty && pat.isPrefixOf (c :: cs)
    then removeAllGo pat fuel ((c :: cs).drop pat.length)
    else c :: removeAllGo pat fuel cs

/-- Python `s.replace(pat, '')`. -/
def removeAllL (pat s : List Char) : List Char := removeAllGo pat s.length s

/-- Fuel-indexed body of Python `s.replace(pat, '', 1)` (remove the first
occurrence only). -/
def removeFirstGo (pat : List Char) : Nat → List Char → List Char
  | 0, _ => []
  | _, [] => []
  | fuel + 1, c :: cs =>
    if !pat.isEmpty && pat.isPrefixOf (c :: cs)
    then (c :: cs).drop pat.length
    else c :: removeFirstGo pat fuel cs

/-- Python `s.replace(pat, '', 1)`. -/
def removeFirstL (pat s : List Char) : List Char := removeFirstGo pat s.length s

/-- Fuel-indexed body of Python `s.count(pat)` (non-overlapping count). -/
def countOccGo (pat : List Char) : Nat → List Char → Nat
  | 0, _ => 0
  | _, [] => 0
  | fuel + 1, c :: cs =>
    if !pat.isEmpty && pat.isPrefixOf (c :: cs)
    then 1 + countOccGo pat fuel ((c :: cs).drop pat.length)
    else countOccGo pat fuel cs

/-- Python `s.count(pat)`. -/
def countOccL (pat s : List Char) : Nat := countOccGo pat s.length s

/-!  ### `_clean_response_text` (gemini_automation.py lines 515-544)  -/

/-- The fixed UI-chrome phrases removed by `_clean_response_text`
(`ui_elements`, in source order). -/
def showThinkingL : List Char := "Show thinking".data

/-- `"Copy code"` UI phrase. -/
def copyCodeL : List Char := "Copy code".data

/-- `"Copy"` UI phrase. -/
def copyL : List Char := "Copy".data

/-- The disclaimer footer phrase removed by `_clean_response_text`. -/
def geminiNoticeL : List Char := "Gemini can make mistakes, so double-check it".data

/-- `_clean_response_text(raw_text, question)`: collapse whitespace runs,
strip the echoed question (prefix if possible, otherwise first occurrence),
then remove each UI-chrome phrase everywhere, stripping after each step. -/
def cleanResponseText (rawText question : List Char) : List Char :=
  if rawText = [] then []
  else
    let cleaned0 := collapseWs (stripL rawText)
    let cleaned1 :=
      if question ≠ [] then
        let questionClean := collapseWs (stripL question)
        if questionClean.isPrefixOf cleaned0 then stripL (cleaned0.drop questionClean.length)
        else stripL (removeFirstL questionClean cleaned0)
      else cleaned0
    let cleaned2 := stripL (removeAllL showThinkingL cleaned1)
    let cleaned3 := stripL (removeAllL copyCodeL cleaned2)
    let cleaned4 := stripL (removeAllL copyL cleaned3)
    stripL (removeAllL geminiNoticeL cleaned4)

/-!  ### `_validate_response` (lines 1058-1093)  -/

/-- Keywords whose presence in the lowercased question marks it as a
math-style question (`_validate_response` / `_is_response_complete`). -/
def mathKeywords : List (List Char) :=
  ["what is".data, "+".data, "-".data, "*".data, "/".data, "calculate".data, "solve".data]

/-- `any(word in question_lower for word in [...])` for the math keywords. -/
def isMathQuestion (questionLower : List Char) : Bool :=
  mathKeywords.any fun w => containsSubL w questionLower

/-- The UI placeholder tokens rejected by `_validate_response` (`ui_text`). -/
def uiTextTokens : List (List Char) :=
  ["loading".data, "wait".data, "processing".data, "...".data, "error".data]

/-- `_validate_response(response, question)`. -/
def validateResponse (response question : List Char) : Bool :=
  if response.length < 1 ∨ response.length > 10000 then false
  else if lowerL (stripL response) = lowerL (stripL question) then false
  else if containsSubL (lowerL question) (lowerL response) = true
          ∧ response.length < question.length * 2 then false
  else if isMathQuestion (lowerL question) = true
          ∧ containsDigitL response = true
          ∧ 1 ≤ (stripL response).length then true
  else if response.length < 3 then false
  else if (uiTextTokens.any fun ui => containsSubL ui (stripL (lowerL response))) = true
          ∧ response.length < 20 then false
  else true

/-!  ### `_is_response_complete` (lines 999-1056)  -/

/-- Keywords marking a code-style question. -/
def codeKeywords : List (List Char) :=
  ["code".data, "python".data, "function".data, "script".data, "program".data]

/-- Canonical code-structure fragments searched for in the response text. -/
def codeFragments : List (List Char) :=
  ["import ".data, "def ".data, "class ".data, "if __name__".data]

/-- The code-fence marker. -/
def fenceL : List Char := "```".data

/-- The sentence/quote terminators accepted as natural completion
(`('.', '!', '?', '```', '"', "'")`).  `Char.ofNat 39` is the apostrophe. -/
def completionClosers : List (List Char) :=
  [".".data, "!".data, "?".data, "```".data, "\"".data, [Char.ofNat 39]]

/-- Loading/processing placeholder words excluded from short factual answers. -/
def loadingTokens : List (List Char) :=
  ["loading".data, "wait".data, "processing".data]

/-- `text_stripped.endswith(('.', '!', '?', '```', '"', "'"))`. -/
def endsWithCloser (s : List Char) : Bool :=
  completionClosers.any fun suffix => endsWithL suffix s

/-- `_is_response_complete(text, question)`: the completeness classifier. -/
def isResponseComplete (text question : List Char) : Bool :=
  -- `if not text or len(text) < 1` — both conjuncts hold exactly when empty
  if text = [] then false
  else if lowerL (stripL text) = lowerL (stripL question) then false
  else if isMathQuestion (lowerL question) = true
          ∧ 1 ≤ (stripL text).length
          ∧ containsDigitL text = true then true
  else if (codeKeywords.any fun w => containsSubL w (lowerL question)) = true then
    (if containsSubL fenceL text = true ∧ countOccL fenceL text % 2 ≠ 0 then false
     else if (codeFragments.any fun p => containsSubL p text) = true then true
     else decide (text.length > 20))
  else if endsWithCloser (stripL text) = true then decide (text.length > 10)
  else if 2 < (stripL text).length ∧ (stripL text).length < 50
          ∧ (wordsL (stripL text)).length ≤ 5
          ∧ (loadingTokens.any fun w => containsSubL w (lowerL text)) = false then true
  else if text.length > 500 then true
  else decide (text.length > 50)

/-!  ### `_monitor_response_completion` (lines 906-966)

The polling loop is modelled as a step function on the loop state
`(last_length, last_text, stable_count)` driven by the list of texts observed
at the successive polls; exhausting the list models reaching the overall
timeout.  A `None` read is observationally the empty string here: the code
computes `current_length = len(current_text) if current_text else 0`, and
`current_text` is only stored or compared on branches that require
`current_length > 0`.  -/

/-- The monitor loop state `(last_length, last_text, stable_count)`. -/
structure MonState where
  lastLength : Nat
  lastText : List Char
  stableCount : Nat
deriving DecidableEq

/-- Result of one poll iteration: keep looping with a new state, or return
the completed text. -/
inductive StepResult where
  | next (st : MonState)
  | finished (text : List Char)
deriving DecidableEq

/-- The initial monitor state (`last_length = 0`, `last_text = ""`,
`stable_count = 0`). -/
def initMonState : MonState := ⟨0, [], 0⟩

/-- One iteration of the `_monitor_response_completion` polling loop. -/
def monitorStep (question : List Char) (st : MonState) (currentText : List Char) : StepResult :=
  let currentLength := currentText.length
  if currentLength > st.lastLength then
    -- content is growing: reset stability counter, record text
    StepResult.next ⟨currentLength, currentText, 0⟩
  else if currentLength = st.lastLength ∧ currentLength > 0 then
    if currentText = st.lastText then
      -- `stable_count += 1` then `if stable_count >= 6`
      if 6 ≤ st.stableCount + 1 then
        if isResponseComplete currentText question = true then StepResult.finished currentText
        else StepResult.next ⟨st.lastLength, st.lastText, 0⟩
      else StepResult.next ⟨st.lastLength, st.lastText, st.stableCount + 1⟩
    else StepResult.next ⟨st.lastLength, currentText, 0⟩
  else StepResult.next st

/-- The timeout epilogue of `_monitor_response_completion`:
`if last_text and len(last_text) > 50: return last_text; return None`. -/
def monitorTimeout (lastText : List Char) : Option (List Char) :=
  if lastText ≠ [] ∧ 50 < lastText.length then some lastText else none

/-- Run the polling loop over the observed texts; `none` marks an early
`return current_text` (completion) so the final state is only produced when
the loop runs to its timeout. -/
def runStates (question : List Char) : List (List Char) → MonState → Option MonState
  | [], st => some st
  | o :: os, st =>
    match monitorStep question st o with
    | StepResult.finished _ => none
    | StepResult.next st2 => runStates question os st2

/-- The full `_monitor_response_completion` outcome over the observed texts:
either an early completed text, or the timeout epilogue on the final state. -/
def monitorRun (question : List Char) : List (List Char) → MonState → Option (List Char)
  | [], st => monitorTimeout st.lastText
  | o :: os, st =>
    match monitorStep question st o with
    | StepResult.finished t => some t
    | StepResult.next st2 => monitorRun question os st2

/-- The largest observed text length (used to characterise the monitor's
final `last_length`). -/
def maxObsLen (obs : List (List Char)) : Nat :=
  obs.foldl (fun a o => max a o.length) 0

/-!  ### `_send_command` (lines 174-196) and the correlation counter

`self.message_id` starts at `1` (line 70).  A command sent without an `id`
is assigned the counter value, the counter is incremented, and the client
reads messages until one carries `id == command_id`; every other message is
discarded.  The incoming transport stream is modelled as a list of messages,
each with an optional `id` field (events have none).  -/

/-- A DevTools message: replies carry the correlation `id`, unsolicited
events carry none.  The `method` field stands for the rest of the payload. -/
structure CdpMessage where
  id : Option Nat
  method : String
deriving DecidableEq

/-- The `while True: recv` loop of `_send_command`: returns the discarded
prefix and, if found, the first message whose `id` matches together with the
unread remainder of the stream. -/
def readUntilReply (commandId : Nat) : List CdpMessage →
    List CdpMessage × Option (CdpMessage × List CdpMessage)
  | [] => ([], none)
  | m :: rest =>
    if m.id = some commandId then ([], some (m, rest))
    else
      let r := readUntilReply commandId rest
      (m :: r.1, r.2)

/-- Outcome of one `_send_command` call on a command without an `id`. -/
structure SendRecord where
  assignedId : Nat
  discarded : List CdpMessage
  reply : Option CdpMessage
deriving DecidableEq

/-- One `_send_command` call (command without `id`): assign the counter as
the id, increment the counter, read until the matching reply.  Returns the
record, the new counter, and the unread remainder of the stream. -/
def sendCommand (messageId : Nat) (stream : List CdpMessage) :
    SendRecord × Nat × List CdpMessage :=
  match readUntilReply messageId stream with
  | (d, some (m, rest)) => (⟨messageId, d, some m⟩, messageId + 1, rest)
  | (d, none) => (⟨messageId, d, none⟩, messageId + 1, [])

/-- `n` sequential `_send_command` calls on one connection, starting from
counter value `messageId`, reading from the given transport stream. -/
def runSends : Nat → Nat → List CdpMessage → List SendRecord
  | 0, _, _ => []
  | n + 1, messageId, stream =>
    let r := sendCommand messageId stream
    r.1 :: runSends n r.2.1 r.2.2

/-!  ### `_walk_up_dom_tree` (lines 546-619) and `_verify_common_parent`
(lines 709-789)

The ancestor chain is modelled as the list of nodes the walk would visit
(the question element first, then successive parents); reaching the end of
the list models `parentElement` returning null.  Each node records the
values the remote reads would observe: its class attribute values, the text
length read by the walk, and the response-element count and total text
length read by the verification call.  -/

/-- A DOM node as observed by the walk: `classes` are the values of its
`class` attributes, `textLen` the walk's `len(text_content)`,
`responseCount` the number of response-pattern descendants found by
`_verify_common_parent`, and `totalTextLen` the `this.textContent.length`
read by the same call. -/
structure DomNode where
  classes : List String
  textLen : Nat
  responseCount : Nat
  totalTextLen : Nat
deriving DecidableEq

/-- The conversation-container class keywords
(`['chat-history', 'conversation', 'chat-container']`). -/
def convKeywords : List (List Char) :=
  ["chat-history".data, "conversation".data, "chat-container".data]

/-- `' '.join(classes)` for the class attribute values. -/
def joinClasses (classes : List String) : List Char :=
  joinWordsL (classes.map String.data)

/-- `any(keyword in ' '.join(classes).lower() for keyword in [...])`. -/
def hasConvKeyword (n : DomNode) : Bool :=
  convKeywords.any fun k => containsSubL k (lowerL (joinClasses n.classes))

/-- The length promotion criterion `text_length > question_length * 1.2`.
The Python float literal `1.2` is modelled as the exact rational `6/5`
(the comparison is stated over integers as `5 * textLen > 6 * qlen`). -/
def lengthPromotion (n : DomNode) (questionLength : Nat) : Bool :=
  decide (5 * n.textLen > 6 * questionLength)

/-- `_verify_common_parent`: passes when a response-pattern descendant
exists (`hasResponseElements` is `responseCount > 0` in the injected JS),
or, as fallback, when the total text length lies strictly between 1x and 3x
the question length. -/
def verifyCommonParent (n : DomNode) (questionLength : Nat) : Bool :=
  if n.responseCount > 0 then true
  else if n.totalTextLen > questionLength ∧ n.totalTextLen < questionLength * 3 then true
  else false

/-- The `while current_node_id and level < max_levels` loop of
`_walk_up_dom_tree`: at each level, a conversation-keyword match or the
length criterion triggers verification; the first verified node is
returned. -/
def walkUpAux (questionLength : Nat) : List DomNode → Nat → Option DomNode
  | [], _ => none
  | n :: rest, level =>
    if level < 10 then
      if hasConvKeyword n = true ∧ verifyCommonParent n questionLength = true then some n
      else if lengthPromotion n questionLength = true
              ∧ verifyCommonParent n questionLength = true then some n
      else walkUpAux questionLength rest (level + 1)
    else none

/-- `_walk_up_dom_tree(start_node_id, question_length)` over the observed
ancestor chain (the start node itself is level 0, as in the source). -/
def walkUpDomTree (chain : List DomNode) (questionLength : Nat) : Option DomNode :=
  walkUpAux questionLength chain 0

/-!  ### `_find_response_within_parent` (lines 829-904)

The injected JS iterates six response-pattern selectors in order and, for
each, the matched elements in document order, returning the first element
whose trimmed text is non-empty and does not contain the literal string
`'What is 2+2?'` — a hard-coded test question, not the question of the
current `ask` call.  Each element is modelled by its raw text; the input is
the per-selector lists of element texts in scan order.  -/

/-- The literal string hard-coded in the injected JS filter
(`!text.includes('What is 2+2?')`). -/
def hardcodedQuestionL : List Char := "What is 2+2?".data

/-- The per-element filter of the injected JS:
`text.length > 0 && !text.includes('What is 2+2?')` on the trimmed text. -/
def responseElementFilter (elementText : List Char) : Bool :=
  decide (0 < (stripL elementText).length) && !containsSubL hardcodedQuestionL (stripL elementText)

/-- Scan one selector's element list. -/
def findInBucket (elements : List (List Char)) : Option (List Char) :=
  elements.find? responseElementFilter

/-- `_find_response_within_parent`: scan the selector buckets in priority
order, returning the first element text passing the filter. -/
def findResponseWithinParent : List (List (List Char)) → Option (List Char)
  | [] => none
  | bucket :: rest =>
    match findInBucket bucket with
    | some t => some t
    | none => findResponseWithinParent rest

/-- A well-formed word list: every word is non-empty and whitespace-free.
`wordsL` always produces such a list. -/
def WordListP (L : List (List Char)) : Prop :=
  ∀ w ∈ L, w ≠ [] ∧ ∀ ch ∈ w, wsChar ch = false

/-!  ## Basic list facts  -/

theorem dropWhile_length_le (p : Char → Bool) (l : List Char) :
    (l.dropWhile p).length ≤ l.length :=
  (List.dropWhile_sublist p).length_le

theorem dropWhile_all_left (p : Char → Bool) :
    ∀ (u v : List Char), (∀ c ∈ u, p c = true) →
      (u ++ v).dropWhile p = v.dropWhile p := by
  intro u
  induction u with
  | nil => intro v _; rfl
  | cons c u ih =>
    intro v h
    have hc : p c = true := h c (List.mem_cons_self c u)
    simp only [List.cons_append, List.dropWhile_cons, hc, if_true]
    exact ih v fun d hd => h d (List.mem_cons_of_mem c hd)

theorem dropWhile_all_false (p : Char → Bool) :
    ∀ (l : List Char), (∀ c ∈ l, p c = false) → l.dropWhile p = l := by
  intro l
  cases l with
  | nil => intro _; rfl
  | cons c cs =>
    intro h
    have hc : p c = false := h c (List.mem_cons_self c cs)
    simp [List.dropWhile_cons, hc]

theorem dropWhile_cons_false (p : Char → Bool) (c : Char) (cs : List Char)
    (h : p c = false) : (c :: cs).dropWhile p = c :: cs := by
  simp [List.dropWhile_cons, h]

theorem takeWhile_all_left (p : Char → Bool) :
    ∀ (u v : List Char), (∀ c ∈ u, p c = true) →
      (u ++ v).takeWhile p = u ++ v.takeWhile p := by
  intro u
  induction u with
  | nil => intro v _; rfl
  | cons c u ih =>
    intro v h
    have hc : p c = true := h c (List.mem_cons_self c u)
    simp only [List.cons_append, List.takeWhile_cons, hc, if_true]
    rw [ih v fun d hd => h d (List.mem_cons_of_mem c hd)]

theorem takeWhile_stops_left (p : Char → Bool) (u v : List Char)
    (h : u.dropWhile p ≠ []) : (u ++ v).takeWhile p = u.takeWhile p := by
  rw [List.takeWhile_append]
  have hlt : (u.takeWhile p).length ≠ u.length := by
    intro heq
    have := List.takeWhile_append_dropWhile p u
    have hlen := congrArg List.length this
    simp only [List.length_append] at hlen
    have : (u.dropWhile p).length = 0 := by omega
    exact h (List.eq_nil_of_length_eq_zero this)
  simp [hlt]

theorem dropWhile_stops_left (p : Char → Bool) (u v : List Char)
    (h : u.dropWhile p ≠ []) : (u ++ v).dropWhile p = u.dropWhile p ++ v := by
  rw [List.dropWhile_append]
  simp [List.isEmpty_iff, h]

/-!  ## Fuel irrelevance and unfolding equations  -/

theorem collapseGo_irrel : ∀ (f g : Nat) (s : List Char),
    s.length ≤ f → s.length ≤ g → collapseGo f s = collapseGo g s := by
  intro f
  induction f with
  | zero =>
    intro g s hf _
    have : s = [] := List.eq_nil_of_length_eq_zero (Nat.le_zero.mp hf)
    subst this
    cases g <;> rfl
  | succ f ih =>
    intro g s hf hg
    cases s with
    | nil => cases g <;> rfl
    | cons c cs =>
      cases g with
      | zero => simp at hg
      | succ g =>
        have hcs : cs.length ≤ f ∧ cs.length ≤ g := by
          simp at hf hg; omega
        have hdw : (cs.dropWhile wsChar).length ≤ f ∧ (cs.dropWhile wsChar).length ≤ g := by
          have := dropWhile_length_le wsChar cs
          omega
        simp only [collapseGo]
        split
        · rw [ih g (cs.dropWhile wsChar) hdw.1 hdw.2]
        · rw [ih g cs hcs.1 hcs.2]

theorem collapseWs_nil : collapseWs [] = [] := rfl

theorem collapseWs_cons (c : Char) (cs : List Char) :
    collapseWs (c :: cs) =
      if wsChar c then ' ' :: collapseWs (cs.dropWhile wsChar) else c :: collapseWs cs := by
  show collapseGo (cs.length + 1) (c :: cs) = _
  simp only [collapseGo, collapseWs]
  split
  · rw [collapseGo_irrel cs.length (cs.dropWhile wsChar).length (cs.dropWhile wsChar)
      (dropWhile_length_le wsChar cs) le_rfl]
  · rfl

theorem wordsGo_irrel : ∀ (f g : Nat) (s : List Char),
    s.length ≤ f → s.length ≤ g → wordsGo f s = wordsGo g s := by
  intro f
  induction f with
  | zero =>
    intro g s hf _
    have : s = [] := List.eq_nil_of_length_eq_zero (Nat.le_zero.mp hf)
    subst this
    cases g <;> rfl
  | succ f ih =>
    intro g s hf hg
    cases s with
    | nil => cases g <;> rfl
    | cons c cs =>
      cases g with
      | zero => simp at hg
      | succ g =>
        have hcs : cs.length ≤ f ∧ cs.length ≤ g := by
          simp at hf hg; omega
        have hdw : (cs.dropWhile (fun d => !wsChar d)).length ≤ f
            ∧ (cs.dropWhile (fun d => !wsChar d)).length ≤ g := by
          have := dropWhile_length_le (fun d => !wsChar d) cs
          omega
        simp only [wordsGo]
        split
        · rw [ih g cs hcs.1 hcs.2]
        · rw [ih g (cs.dropWhile (fun d => !wsChar d)) hdw.1 hdw.2]

theorem wordsL_nil : wordsL [] = [] := rfl

theorem wordsL_cons (c : Char) (cs : List Char) :
    wordsL (c :: cs) =
      if wsChar c then wordsL cs
      else (c :: cs.takeWhile (fun d => !wsChar d)) :: wordsL (cs.dropWhile (fun d => !wsChar d)) := by
  show wordsGo (cs.length + 1) (c :: cs) = _
  simp only [wordsGo, wordsL]
  split
  · rfl
  · rw [wordsGo_irrel cs.length (cs.dropWhile (fun d => !wsChar d)).length
      (cs.dropWhile (fun d => !wsChar d)) (dropWhile_length_le _ cs) le_rfl]

theorem pat_length_pos_of_guard {pat : List Char} {c : Char} {cs : List Char}
    (hm : (!pat.isEmpty && pat.isPrefixOf (c :: cs)) = true) : 1 ≤ pat.length := by
  cases pat with
  | nil => simp at hm
  | cons a l => simp

theorem removeAllGo_irrel (pat : List Char) : ∀ (f g : Nat) (s : List Char),
    s.length ≤ f → s.length ≤ g → removeAllGo pat f s = removeAllGo pat g s := by
  intro f
  induction f with
  | zero =>
    intro g s hf _
    have : s = [] := List.eq_nil_of_length_eq_zero (Nat.le_zero.mp hf)
    subst this
    cases g <;> rfl
  | succ f ih =>
    intro g s hf hg
    cases s with
    | nil => cases g <;> rfl
    | cons c cs =>
      cases g with
      | zero => simp at hg
      | succ g =>
        have hcs : cs.length ≤ f ∧ cs.length ≤ g := by
          simp at hf hg; omega
        simp only [removeAllGo]
        split
        · rename_i hm
          have hp := pat_length_pos_of_guard hm
          have hlen : ((c :: cs).drop pat.length).length ≤ cs.length := by
            rw [List.length_drop]; simp; omega
          exact ih g ((c :: cs).drop pat.length) (by omega) (by omega)
        · rw [ih g cs hcs.1 hcs.2]

theorem removeAllL_nil (pat : List Char) : removeAllL pat [] = [] := rfl

theorem removeAllL_cons (pat : List Char) (c : Char) (cs : List Char) :
    removeAllL pat (c :: cs) =
      if !pat.isEmpty && pat.isPrefixOf (c :: cs)
      then removeAllL pat ((c :: cs).drop pat.length)
      else c :: removeAllL pat cs := by
  show removeAllGo pat (cs.length + 1) (c :: cs) = _
  simp only [removeAllGo, removeAllL]
  split
  · rename_i hm
    have hp := pat_length_pos_of_guard hm
    have hlen : ((c :: cs).drop pat.length).length ≤ cs.length := by
      rw [List.length_drop]; simp; omega
    exact removeAllGo_irrel pat cs.length ((c :: cs).drop pat.length).length
      ((c :: cs).drop pat.length) hlen le_rfl
  · rfl

/-!  ## `strip` structure lemmas  -/

theorem rstripL_nil : rstripL [] = [] := rfl

theorem rstripL_decomp (u : List Char) :
    ∃ w, u = rstripL u ++ w ∧ ∀ c ∈ w, wsChar c = true := by
  refine ⟨(u.reverse.takeWhile wsChar).reverse, ?_, ?_⟩
  · have h := List.takeWhile_append_dropWhile wsChar u.reverse
    have h2 := congrArg List.reverse h
    simp only [List.reverse_append, List.reverse_reverse] at h2
    unfold rstripL
    exact h2.symm
  · intro c hc
    rw [List.mem_reverse] at hc
    exact List.mem_takeWhile_imp hc

theorem rstripL_append_allws (a b : List Char) (h : ∀ c ∈ b, wsChar c = true) :
    rstripL (a ++ b) = rstripL a := by
  unfold rstripL
  rw [List.reverse_append, dropWhile_all_left wsChar b.reverse a.reverse
    (fun c hc => h c (List.mem_reverse.mp hc))]

theorem rstripL_allws (b : List Char) (h : ∀ c ∈ b, wsChar c = true) :
    rstripL b = [] := by
  have := rstripL_append_allws [] b h
  simpa using this

theorem rstripL_append_of_ne (a b : List Char) (h : rstripL b ≠ []) :
    rstripL (a ++ b) = a ++ rstripL b := by
  have hd : b.reverse.dropWhile wsChar ≠ [] := by
    intro hz
    apply h
    unfold rstripL
    rw [hz]
    rfl
  unfold rstripL
  rw [List.reverse_append, dropWhile_stops_left wsChar b.reverse a.reverse hd]
  simp [List.reverse_append]

theorem rstripL_all_nonws (t : List Char) (h : ∀ c ∈ t, wsChar c = false) :
    rstripL t = t := by
  unfold rstripL
  rw [dropWhile_all_false wsChar t.reverse (fun c hc => h c (List.mem_reverse.mp hc))]
  exact List.reverse_reverse t

theorem rstripL_eq_nil_iff (b : List Char) :
    rstripL b = [] ↔ ∀ c ∈ b, wsChar c = true := by
  constructor
  · intro h c hc
    obtain ⟨w, hw, hall⟩ := rstripL_decomp b
    rw [h] at hw
    simp at hw
    exact hall c (hw ▸ hc)
  · exact rstripL_allws b

theorem rstripL_cons_nonws (e : Char) (u : List Char) (he : wsChar e = false) :
    rstripL (e :: u) = e :: rstripL u := by
  by_cases h : rstripL u = []
  · have hall : ∀ c ∈ u, wsChar c = true := (rstripL_eq_nil_iff u).mp h
    have h1 : rstripL ([e] ++ u) = rstripL [e] := rstripL_append_allws [e] u hall
    have h2 : rstripL [e] = [e] := by
      refine rstripL_all_nonws [e] ?_
      intro c hc
      simp at hc
      subst hc
      exact he
    simp only [List.singleton_append] at h1
    rw [h1, h2, h]
  · have := rstripL_append_of_ne [e] u h
    simpa using this

theorem lstripL_cons_ws (c : Char) (cs : List Char) (h : wsChar c = true) :
    lstripL (c :: cs) = lstripL cs := by
  simp [lstripL, List.dropWhile_cons, h]

theorem lstripL_cons_nonws (c : Char) (cs : List Char) (h : wsChar c = false) :
    lstripL (c :: cs) = c :: cs := by
  simp [lstripL, List.dropWhile_cons, h]

theorem stripL_nil : stripL [] = [] := rfl

theorem stripL_cons_ws (c : Char) (cs : List Char) (h : wsChar c = true) :
    stripL (c :: cs) = stripL cs := by
  unfold stripL
  rw [lstripL_cons_ws c cs h]

theorem stripL_cons_nonws (c : Char) (cs : List Char) (h : wsChar c = false) :
    stripL (c :: cs) = c :: rstripL cs := by
  unfold stripL
  rw [lstripL_cons_nonws c cs h, rstripL_cons_nonws c cs h]

theorem mem_lstripL_of_nonws {c : Char} {l : List Char}
    (hc : c ∈ l) (hw : wsChar c = false) : c ∈ lstripL l := by
  have h := List.takeWhile_append_dropWhile wsChar l
  rw [← h] at hc
  rcases List.mem_append.mp hc with h1 | h2
  · exact absurd (List.mem_takeWhile_imp h1) (by simp [hw])
  · exact h2

theorem mem_rstripL_of_nonws {c : Char} {l : List Char}
    (hc : c ∈ l) (hw : wsChar c = false) : c ∈ rstripL l := by
  obtain ⟨w, hdec, hall⟩ := rstripL_decomp l
  rw [hdec] at hc
  rcases List.mem_append.mp hc with h1 | h2
  · exact h1
  · exact absurd (hall c h2) (by simp [hw])

theorem mem_stripL_of_nonws {c : Char} {l : List Char}
    (hc : c ∈ l) (hw : wsChar c = false) : c ∈ stripL l :=
  mem_rstripL_of_nonws (mem_lstripL_of_nonws hc hw) hw

theorem stripL_ne_nil_of_nonws_mem {c : Char} {l : List Char}
    (hc : c ∈ l) (hw : wsChar c = false) : stripL l ≠ [] := by
  intro h
  have := mem_stripL_of_nonws hc hw
  rw [h] at this
  simp at this

/-!  ## `wordsL` structure lemmas  -/

theorem wordsL_all_ws : ∀ (s : List Char), (∀ c ∈ s, wsChar c = true) → wordsL s = [] := by
  intro s
  induction s with
  | nil => intro _; rfl
  | cons c cs ih =>
    intro h
    rw [wordsL_cons, if_pos (h c (List.mem_cons_self c cs))]
    exact ih fun d hd => h d (List.mem_cons_of_mem c hd)

theorem wordsL_drop_ws_left : ∀ (v u : List Char), (∀ c ∈ v, wsChar c = true) →
    wordsL (v ++ u) = wordsL u := by
  intro v
  induction v with
  | nil => intro u _; rfl
  | cons c v ih =>
    intro u h
    rw [List.cons_append, wordsL_cons, if_pos (h c (List.mem_cons_self c v))]
    exact ih u fun d hd => h d (List.mem_cons_of_mem c hd)

theorem wordsL_append_space_aux : ∀ (n : Nat) (a b : List Char), a.length ≤ n →
    wordsL (a ++ ' ' :: b) = wordsL a ++ wordsL b := by
  intro n
  induction n with
  | zero =>
    intro a b ha
    have : a = [] := List.eq_nil_of_length_eq_zero (Nat.le_zero.mp ha)
    subst this
    simp only [List.nil_append, wordsL_nil]
    rw [wordsL_cons, if_pos (by decide)]
  | succ n ih =>
    intro a b ha
    cases a with
    | nil =>
      simp only [List.nil_append, wordsL_nil]
      rw [wordsL_cons, if_pos (by decide)]
    | cons c cs =>
      simp only [List.length_cons] at ha
      by_cases hw : wsChar c = true
      · rw [List.cons_append, wordsL_cons, if_pos hw, wordsL_cons, if_pos hw]
        exact ih cs b (by omega)
      · have hw2 : wsChar c = false := by
          cases hx : wsChar c
          · rfl
          · exact absurd hx hw
        rw [List.cons_append, wordsL_cons, if_neg hw, wordsL_cons, if_neg hw]
        by_cases hd : cs.dropWhile (fun d => !wsChar d) = []
        · have hallnw : ∀ d ∈ cs, (fun d => !wsChar d) d = true := by
            intro d hdm
            have h := List.takeWhile_append_dropWhile (fun d => !wsChar d) cs
            rw [hd, List.append_nil] at h
            have hmem : d ∈ cs.takeWhile (fun d => !wsChar d) := by
              rw [h]
              exact hdm
            simpa using List.mem_takeWhile_imp hmem
          rw [takeWhile_all_left _ cs (' ' :: b) hallnw]
          rw [dropWhile_all_left _ cs (' ' :: b) hallnw]
          rw [dropWhile_cons_false _ ' ' b (by decide)]
          rw [List.takeWhile_cons, if_neg (by decide)]
          rw [wordsL_cons, if_pos (by decide)]
          rw [hd, wordsL_nil]
          have htk : cs.takeWhile (fun d => !wsChar d) = cs := by
            have h := List.takeWhile_append_dropWhile (fun d => !wsChar d) cs
            rw [hd, List.append_nil] at h
            exact h
          rw [htk]
          simp
        · rw [takeWhile_stops_left _ cs (' ' :: b) hd]
          rw [dropWhile_stops_left _ cs (' ' :: b) hd]
          have hlen : (cs.dropWhile (fun d => !wsChar d)).length ≤ n := by
            have := dropWhile_length_le (fun d => !wsChar d) cs
            omega
          rw [ih (cs.dropWhile (fun d => !wsChar d)) b hlen]
          simp

theorem wordsL_append_space (a b : List Char) :
    wordsL (a ++ ' ' :: b) = wordsL a ++ wordsL b :=
  wordsL_append_space_aux a.length a b le_rfl

theorem wordsL_wordlist_aux : ∀ (n : Nat) (s : List Char), s.length ≤ n →
    WordListP (wordsL s) := by
  intro n
  induction n with
  | zero =>
    intro s hs
    have : s = [] := List.eq_nil_of_length_eq_zero (Nat.le_zero.mp hs)
    subst this
    intro w hw
    simp [wordsL_nil] at hw
  | succ n ih =>
    intro s hs
    cases s with
    | nil =>
      intro w hw
      simp [wordsL_nil] at hw
    | cons c cs =>
      simp only [List.length_cons] at hs
      by_cases hw : wsChar c = true
      · rw [wordsL_cons, if_pos hw]
        exact ih cs (by omega)
      · have hw2 : wsChar c = false := by
          cases hx : wsChar c
          · rfl
          · exact absurd hx hw
        rw [wordsL_cons, if_neg hw]
        intro w hwm
        rcases List.mem_cons.mp hwm with h1 | h2
        · subst h1
          refine ⟨by simp, ?_⟩
          intro ch hch
          rcases List.mem_cons.mp hch with h3 | h4
          · subst h3; exact hw2
          · have := List.mem_takeWhile_imp h4
            simp at this
            exact this
        · have hlen : (cs.dropWhile (fun d => !wsChar d)).length ≤ n := by
            have := dropWhile_length_le (fun d => !wsChar d) cs
            omega
          exact ih (cs.dropWhile (fun d => !wsChar d)) hlen w h2

theorem wordsL_wordlist (s : List Char) : WordListP (wordsL s) :=
  wordsL_wordlist_aux s.length s le_rfl

/-!  ## `joinWordsL` structure lemmas  -/

theorem joinWordsL_nil : joinWordsL [] = [] := rfl

theorem joinWordsL_single (w : List Char) : joinWordsL [w] = w := by
  simp [joinWordsL]

theorem joinWordsL_cons_ne (w : List Char) (ws : List (List Char)) (h : ws ≠ []) :
    joinWordsL (w :: ws) = w ++ ' ' :: joinWordsL ws := by
  simp [joinWordsL, List.isEmpty_iff, h]

theorem joinWordsL_append_ne : ∀ (L1 L2 : List (List Char)), L1 ≠ [] → L2 ≠ [] →
    joinWordsL (L1 ++ L2) = joinWordsL L1 ++ ' ' :: joinWordsL L2 := by
  intro L1
  induction L1 with
  | nil => intro L2 h _; exact absurd rfl h
  | cons w ws ih =>
    intro L2 _ h2
    cases ws with
    | nil =>
      simp only [List.singleton_append, joinWordsL_single]
      rw [joinWordsL_cons_ne w L2 h2]
    | cons w2 ws2 =>
      rw [List.cons_append, joinWordsL_cons_ne w ((w2 :: ws2) ++ L2) (by simp),
        joinWordsL_cons_ne w (w2 :: ws2) (by simp),
        ih L2 (by simp) h2]
      simp

theorem joinWordsL_ne_nil (L : List (List Char)) (hL : WordListP L) (h : L ≠ []) :
    joinWordsL L ≠ [] := by
  cases L with
  | nil => exact absurd rfl h
  | cons w ws =>
    have hw := (hL w (List.mem_cons_self w ws)).1
    simp [joinWordsL]
    intro hx
    exact absurd hx hw

theorem wordlist_tail {w : List Char} {ws : List (List Char)}
    (h : WordListP (w :: ws)) : WordListP ws :=
  fun x hx => h x (List.mem_cons_of_mem w hx)

theorem wordlist_append_right {L1 L2 : List (List Char)}
    (h : WordListP (L1 ++ L2)) : WordListP L2 :=
  fun x hx => h x (List.mem_append.mpr (Or.inr hx))

theorem wordlist_append_left {L1 L2 : List (List Char)}
    (h : WordListP (L1 ++ L2)) : WordListP L1 :=
  fun x hx => h x (List.mem_append.mpr (Or.inl hx))

theorem rstripL_joinWordsL : ∀ (L : List (List Char)), WordListP L →
    rstripL (joinWordsL L) = joinWordsL L := by
  intro L
  induction L with
  | nil => intro _; rfl
  | cons w ws ih =>
    intro h
    obtain ⟨hne, hnonws⟩ := h w (List.mem_cons_self w ws)
    cases ws with
    | nil =>
      rw [joinWordsL_single]
      exact rstripL_all_nonws w hnonws
    | cons w2 ws2 =>
      rw [joinWordsL_cons_ne w (w2 :: ws2) (by simp)]
      have htail := wordlist_tail h
      have hjne : joinWordsL (w2 :: ws2) ≠ [] :=
        joinWordsL_ne_nil (w2 :: ws2) htail (by simp)
      have hrj : rstripL (joinWordsL (w2 :: ws2)) = joinWordsL (w2 :: ws2) := ih htail
      have h1 : rstripL (' ' :: joinWordsL (w2 :: ws2)) = ' ' :: joinWordsL (w2 :: ws2) := by
        have := rstripL_append_of_ne [' '] (joinWordsL (w2 :: ws2)) (by rw [hrj]; exact hjne)
        simpa [hrj] using this
      have := rstripL_append_of_ne w (' ' :: joinWordsL (w2 :: ws2)) (by rw [h1]; simp)
      rw [this, h1]

theorem lstripL_joinWordsL (L : List (List Char)) (hL : WordListP L) :
    lstripL (joinWordsL L) = joinWordsL L := by
  cases L with
  | nil => rfl
  | cons w ws =>
    obtain ⟨hne, hnonws⟩ := hL w (List.mem_cons_self w ws)
    cases w with
    | nil => exact absurd rfl hne
    | cons e w0 =>
      have he : wsChar e = false := hnonws e (List.mem_cons_self e w0)
      show lstripL ((e :: w0) ++ _) = _
      rw [List.cons_append]
      exact lstripL_cons_nonws e _ he

theorem stripL_joinWordsL (L : List (List Char)) (hL : WordListP L) :
    stripL (joinWordsL L) = joinWordsL L := by
  unfold stripL
  rw [lstripL_joinWordsL L hL, rstripL_joinWordsL L hL]

/-!  ## `collapseWs` structure lemmas  -/

theorem collapseWs_nonws_left : ∀ (t r : List Char), (∀ c ∈ t, wsChar c = false) →
    collapseWs (t ++ r) = t ++ collapseWs r := by
  intro t
  induction t with
  | nil => intro r _; rfl
  | cons c t ih =>
    intro r h
    have hc : wsChar c = false := h c (List.mem_cons_self c t)
    rw [List.cons_append, collapseWs_cons, if_neg (by simp [hc]),
      ih r fun d hd => h d (List.mem_cons_of_mem c hd)]
    rfl

theorem collapseWs_ws_run (v r : List Char) (hall : ∀ c ∈ v, wsChar c = true)
    (hv : v ≠ []) (hr : r.dropWhile wsChar = r) :
    collapseWs (v ++ r) = ' ' :: collapseWs r := by
  cases v with
  | nil => exact absurd rfl hv
  | cons a v0 =>
    rw [List.cons_append, collapseWs_cons,
      if_pos (hall a (List.mem_cons_self a v0)),
      dropWhile_all_left wsChar v0 r fun c hc => hall c (List.mem_cons_of_mem a hc), hr]

theorem dropWhile_head_false (p : Char → Bool) : ∀ (l : List Char) (c : Char) (cs : List Char),
    l.dropWhile p = c :: cs → p c = false := by
  intro l
  induction l with
  | nil => intro c cs h; simp at h
  | cons a l ih =>
    intro c cs h
    rw [List.dropWhile_cons] at h
    by_cases hp : p a = true
    · rw [if_pos hp] at h
      exact ih c cs h
    · rw [if_neg hp] at h
      injection h with h1 _
      subst h1
      cases hx : p a
      · rfl
      · exact absurd hx hp

theorem collapse_strip_eq_join_aux : ∀ (n : Nat) (s : List Char), s.length ≤ n →
    collapseWs (stripL s) = joinWordsL (wordsL s) := by
  intro n
  induction n with
  | zero =>
    intro s hs
    have : s = [] := List.eq_nil_of_length_eq_zero (Nat.le_zero.mp hs)
    subst this
    rfl
  | succ n ih =>
    intro s hs
    cases s with
    | nil => rfl
    | cons c cs =>
      simp only [List.length_cons] at hs
      by_cases hw : wsChar c = true
      · rw [stripL_cons_ws c cs hw, wordsL_cons, if_pos hw]
        exact ih cs (by omega)
      · have hw2 : wsChar c = false := by
          cases hx : wsChar c
          · rfl
          · exact absurd hx hw
        rw [stripL_cons_nonws c cs hw2, wordsL_cons, if_neg hw]
        rw [collapseWs_cons, if_neg (by simp [hw2])]
        -- notation: t is the first word tail, r the remainder of the scan
        set t := cs.takeWhile (fun d => !wsChar d) with ht
        set r := cs.dropWhile (fun d => !wsChar d) with hr
        have hcs : t ++ r = cs := List.takeWhile_append_dropWhile _ cs
        have htnw : ∀ d ∈ t, wsChar d = false := by
          intro d hd
          have := List.mem_takeWhile_imp hd
          simpa using this
        have hgoal : collapseWs (rstripL cs) =
            t ++ (if (wordsL r).isEmpty then [] else ' ' :: joinWordsL (wordsL r)) := by
          by_cases hall : ∀ d ∈ r, wsChar d = true
          · have h1 : rstripL cs = t := by
              rw [← hcs, rstripL_append_allws t r hall, rstripL_all_nonws t htnw]
            have h2 : wordsL r = [] := wordsL_all_ws r hall
            rw [h1, h2]
            have := collapseWs_nonws_left t [] htnw
            simpa [collapseWs_nil] using this
          · -- r contains a non-whitespace character
            set u := r.dropWhile wsChar with hu
            have hune : u ≠ [] := by
              intro hz
              apply hall
              intro d hd
              have hsplit := List.takeWhile_append_dropWhile wsChar r
              rw [← hu, hz, List.append_nil] at hsplit
              have hmem : d ∈ r.takeWhile wsChar := by
                rw [hsplit]; exact hd
              exact List.mem_takeWhile_imp hmem
            have hrd : r = r.takeWhile wsChar ++ u := by
              rw [hu]
              exact (List.takeWhile_append_dropWhile wsChar r).symm
            have hrun : ∀ d ∈ r.takeWhile wsChar, wsChar d = true := by
              intro d hd
              exact List.mem_takeWhile_imp hd
            obtain ⟨e, u0, hcons⟩ := List.exists_cons_of_ne_nil hune
            have he : wsChar e = false :=
              dropWhile_head_false wsChar r e u0 (hu ▸ hcons)
            have hrsu : rstripL u = e :: rstripL u0 := by
              rw [hcons]
              exact rstripL_cons_nonws e u0 he
            have hrsune : rstripL u ≠ [] := by rw [hrsu]; simp
            have hrne : r ≠ [] := by
              intro hz
              apply hune
              rw [hu, hz]
              rfl
            have hrhead_ws : r.takeWhile wsChar ≠ [] := by
              obtain ⟨d, r2, hdr⟩ := List.exists_cons_of_ne_nil hrne
              have hd0 : (fun x => !wsChar x) d = false :=
                dropWhile_head_false (fun x => !wsChar x) cs d r2 (hr ▸ hdr)
              have hd : wsChar d = true := by simpa using hd0
              rw [hdr, List.takeWhile_cons, if_pos hd]
              simp
            have h1 : rstripL cs = t ++ (r.takeWhile wsChar ++ rstripL u) := by
              have hx : rstripL (t ++ (r.takeWhile wsChar ++ u)) =
                  (t ++ r.takeWhile wsChar) ++ rstripL u := by
                rw [← List.append_assoc]
                exact rstripL_append_of_ne (t ++ r.takeWhile wsChar) u hrsune
              calc rstripL cs = rstripL (t ++ r) := by rw [hcs]
              _ = rstripL (t ++ (r.takeWhile wsChar ++ u)) := by conv_lhs => rw [hrd]
              _ = (t ++ r.takeWhile wsChar) ++ rstripL u := hx
              _ = t ++ (r.takeWhile wsChar ++ rstripL u) := by rw [List.append_assoc]
            have h2 : collapseWs (rstripL cs) = t ++ ' ' :: collapseWs (rstripL u) := by
              rw [h1, collapseWs_nonws_left t _ htnw, collapseWs_ws_run _ _ hrun hrhead_ws]
              rw [hrsu]
              exact dropWhile_cons_false wsChar e _ he
            have hstr : stripL r = rstripL u := by
              unfold stripL lstripL
              rw [← hu]
            have hlenr : r.length ≤ n := by
              have := dropWhile_length_le (fun d => !wsChar d) cs
              rw [← hr] at this
              omega
            have h3 : collapseWs (rstripL u) = joinWordsL (wordsL r) := by
              rw [← hstr]
              exact ih r hlenr
            have h4 : wordsL r ≠ [] := by
              rw [hrd, wordsL_drop_ws_left _ u hrun, hcons, wordsL_cons, if_neg (by simp [he])]
              simp
            rw [h2, h3, if_neg (by simp [List.isEmpty_iff, h4])]
        rw [hgoal]
        cases hx : (wordsL r).isEmpty
        · rw [joinWordsL_cons_ne _ _ (by simpa [List.isEmpty_iff] using hx)]
          simp
        · rw [if_pos rfl]
          have : wordsL r = [] := by simpa [List.isEmpty_iff] using hx
          rw [this, joinWordsL_single]
          simp

theorem collapse_strip_eq_join (s : List Char) :
    collapseWs (stripL s) = joinWordsL (wordsL s) :=
  collapse_strip_eq_join_aux s.length s le_rfl

/-!  ## Substring-occurrence lemmas  -/

theorem containsSubL_of_occ {pat s : List Char} {i : Nat} (hi : i ≤ s.length)
    (hp : pat.isPrefixOf (s.drop i) = true) : containsSubL pat s = true := by
  unfold containsSubL
  rw [List.any_eq_true]
  exact ⟨i, List.mem_range.mpr (by omega), hp⟩

theorem containsSubL_true_iff (pat s : List Char) :
    containsSubL pat s = true ↔ ∃ i, i ≤ s.length ∧ pat.isPrefixOf (s.drop i) = true := by
  constructor
  · intro h
    unfold containsSubL at h
    rw [List.any_eq_true] at h
    obtain ⟨i, hi, hp⟩ := h
    exact ⟨i, by have := List.mem_range.mp hi; omega, hp⟩
  · rintro ⟨i, hi, hp⟩
    exact containsSubL_of_occ hi hp

theorem containsSubL_false_cons {pat : List Char} {c : Char} {cs : List Char}
    (h : containsSubL pat (c :: cs) = false) : containsSubL pat cs = false := by
  cases hx : containsSubL pat cs
  · rfl
  · exfalso
    obtain ⟨i, hi, hp⟩ := (containsSubL_true_iff pat cs).mp hx
    have : containsSubL pat (c :: cs) = true := by
      refine containsSubL_of_occ (i := i + 1) (by simp; omega) ?_
      rw [List.drop_succ_cons]
      exact hp
    rw [this] at h
    exact Bool.true_eq_false.mp h

theorem removeAllL_of_not_contains (pat : List Char) : ∀ (s : List Char),
    containsSubL pat s = false → removeAllL pat s = s := by
  intro s
  induction s with
  | nil => intro _; rfl
  | cons c cs ih =>
    intro h
    rw [removeAllL_cons]
    have h0 : ¬(!pat.isEmpty && pat.isPrefixOf (c :: cs)) = true := by
      intro hb
      rcases Bool.and_eq_true_iff.mp hb with ⟨_, hp⟩
      have : containsSubL pat (c :: cs) = true :=
        containsSubL_of_occ (i := 0) (by simp) (by rw [List.drop_zero]; exact hp)
      rw [this] at h
      exact Bool.true_eq_false.mp h
    rw [if_neg h0, ih (containsSubL_false_cons h)]

theorem stripL_of_not_ws_ends {a : List Char} (e : Char) (a0 : List Char)
    (ha : a = e :: a0) (he : wsChar e = false) (x : List Char) :
    lstripL (a ++ x) = a ++ x := by
  subst ha
  rw [List.cons_append]
  exact lstripL_cons_nonws e (a0 ++ x) he

theorem removeAllL_append_no_occ (pat : List Char) : ∀ (a b : List Char),
    (∀ i, i < a.length → pat.isPrefixOf ((a ++ b).drop i) = false) →
    removeAllL pat (a ++ b) = a ++ removeAllL pat b := by
  intro a
  induction a with
  | nil => intro b _; rfl
  | cons c a ih =>
    intro b h
    rw [List.cons_append, removeAllL_cons]
    have h0 : pat.isPrefixOf (c :: (a ++ b)) = false := by
      have := h 0 (by simp)
      rw [List.drop_zero] at this
      exact this
    rw [if_neg (by simp [h0])]
    have harg : ∀ i, i < a.length → pat.isPrefixOf ((a ++ b).drop i) = false := by
      intro i hi
      have := h (i + 1) (by simp; omega)
      rw [List.cons_append, List.drop_succ_cons] at this
      exact this
    rw [ih b harg]
    rfl

theorem no_occ_left_of_not_contains (pat a b : List Char)
    (hc : containsSubL pat a = false)
    (hst : ∀ k, k < pat.length → 0 < k → (pat.drop k).isPrefixOf b = false) :
    ∀ i, i < a.length → pat.isPrefixOf ((a ++ b).drop i) = false := by
  intro i hi
  cases hp : pat.isPrefixOf ((a ++ b).drop i)
  · rfl
  · exfalso
    have hpre : pat <+: (a ++ b).drop i := List.isPrefixOf_iff_prefix.mp hp
    have hdrop : (a ++ b).drop i = a.drop i ++ b := by
      rw [List.drop_append_eq_append_drop]
      have hz : i - a.length = 0 := by omega
      rw [hz, List.drop_zero]
    rw [hdrop] at hpre
    have hlen : (a.drop i).length = a.length - i := List.length_drop i a
    by_cases hm : pat.length ≤ a.length - i
    · -- the occurrence lies entirely within `a`
      have htake : pat = (a.drop i).take pat.length := by
        have h1 := List.prefix_iff_eq_take.mp hpre
        rw [List.take_append_eq_append_take] at h1
        have hz : pat.length - (a.drop i).length = 0 := by omega
        rw [hz, List.take_zero, List.append_nil] at h1
        exact h1
      have hocc : pat.isPrefixOf (a.drop i) = true := by
        rw [List.isPrefixOf_iff_prefix, List.prefix_iff_eq_take]
        exact htake
      have : containsSubL pat a = true := containsSubL_of_occ (by omega) hocc
      rw [this] at hc
      exact Bool.true_eq_false.mp hc
    · -- the occurrence straddles the boundary
      have hklt : a.length - i < pat.length := by omega
      have hkpos : 0 < a.length - i := by omega
      obtain ⟨tl, htl⟩ := hpre
      have hdk := congrArg (List.drop (a.length - i)) htl
      rw [List.drop_append_eq_append_drop, List.drop_append_eq_append_drop] at hdk
      have hz1 : a.length - i - pat.length = 0 := by omega
      have hz2 : a.length - i - (a.drop i).length = 0 := by omega
      rw [hz1, List.drop_zero] at hdk
      have hz3 : (a.drop i).drop (a.length - i) = [] := by
        rw [← hlen]
        exact List.drop_length (a.drop i)
      rw [hz2, List.drop_zero, hz3, List.nil_append] at hdk
      have hocc : (pat.drop (a.length - i)).isPrefixOf b = true := by
        rw [List.isPrefixOf_iff_prefix]
        exact ⟨tl, hdk⟩
      have := hst (a.length - i) hklt hkpos
      rw [hocc] at this
      exact Bool.true_eq_false.mp this

theorem not_contains_of_starts {p1 p2 s : List Char}
    (hpre : ∃ u, p1 ++ u = p2)
    (hc : containsSubL p1 s = false) : containsSubL p2 s = false := by
  cases hx : containsSubL p2 s
  · rfl
  · exfalso
    obtain ⟨i, hi, hp⟩ := (containsSubL_true_iff p2 s).mp hx
    have h2 : p2 <+: s.drop i := List.isPrefixOf_iff_prefix.mp hp
    have h1 : p1 <+: p2 := hpre
    have h3 : p1 <+: s.drop i := h1.trans h2
    have : containsSubL p1 s = true :=
      containsSubL_of_occ hi (List.isPrefixOf_iff_prefix.mpr h3)
    rw [this] at hc
    exact Bool.true_eq_false.mp hc

/-!  ## Assembly lemmas for the sanitizer round trip  -/

theorem wordlist_append {L1 L2 : List (List Char)}
    (h1 : WordListP L1) (h2 : WordListP L2) : WordListP (L1 ++ L2) := by
  intro w hw
  rcases List.mem_append.mp hw with h | h
  · exact h1 w h
  · exact h2 w h

theorem joinWordsL_head (L : List (List Char)) (hL : WordListP L) (hne : L ≠ []) :
    ∃ e rest, joinWordsL L = e :: rest ∧ wsChar e = false := by
  cases L with
  | nil => exact absurd rfl hne
  | cons w ws =>
    obtain ⟨hwne, hnonws⟩ := hL w (List.mem_cons_self w ws)
    cases w with
    | nil => exact absurd rfl hwne
    | cons e w0 =>
      refine ⟨e, w0 ++ (if ws.isEmpty then [] else ' ' :: joinWordsL ws), ?_, ?_⟩
      · simp [joinWordsL]
      · exact hnonws e (List.mem_cons_self e w0)

theorem stripL_append_join (L : List (List Char)) (hL : WordListP L) (hne : L ≠ [])
    (x : List Char) :
    stripL (joinWordsL L ++ x) =
      (if rstripL x = [] then joinWordsL L else joinWordsL L ++ rstripL x) := by
  obtain ⟨e, rest, hj, he⟩ := joinWordsL_head L hL hne
  have hl : lstripL (joinWordsL L ++ x) = joinWordsL L ++ x :=
    stripL_of_not_ws_ends e rest hj he x
  unfold stripL
  rw [hl]
  by_cases hx : rstripL x = []
  · rw [if_pos hx]
    rw [rstripL_append_allws _ x ((rstripL_eq_nil_iff x).mp hx)]
    exact rstripL_joinWordsL L hL
  · rw [if_neg hx]
    exact rstripL_append_of_ne _ x hx

theorem cleanResponseText_unfold (rawText question : List Char) (h : rawText ≠ []) :
    cleanResponseText rawText question =
      stripL (removeAllL geminiNoticeL (stripL (removeAllL copyL (stripL (removeAllL copyCodeL
        (stripL (removeAllL showThinkingL
          (if question ≠ [] then
            (if (collapseWs (stripL question)).isPrefixOf (collapseWs (stripL rawText)) then
              stripL ((collapseWs (stripL rawText)).drop (collapseWs (stripL question)).length)
             else stripL (removeFirstL (collapseWs (stripL question)) (collapseWs (stripL rawText))))
           else collapseWs (stripL rawText))))))))) := by
  unfold cleanResponseText
  rw [if_neg h]

theorem clean_ui_stages (answer : List Char)
    (h1 : containsSubL showThinkingL (joinWordsL (wordsL answer)) = false)
    (h2 : containsSubL copyL (joinWordsL (wordsL answer)) = false)
    (h3 : containsSubL geminiNoticeL (joinWordsL (wordsL answer)) = false) :
    stripL (removeAllL geminiNoticeL (stripL (removeAllL copyL (stripL (removeAllL copyCodeL
      (stripL (removeAllL showThinkingL
        (joinWordsL (wordsL answer ++ wordsL "Copy code Show thinking".data)))))))))
      = joinWordsL (wordsL answer) := by
  have hWLa := wordsL_wordlist answer
  by_cases hA : wordsL answer = []
  · rw [hA]
    simp only [List.nil_append]
    decide
  · have hwt4 : wordsL "Copy code Show thinking".data ≠ [] := by decide
    have hsplit : joinWordsL (wordsL answer ++ wordsL "Copy code Show thinking".data)
        = joinWordsL (wordsL answer) ++ ' ' :: joinWordsL (wordsL "Copy code Show thinking".data) :=
      joinWordsL_append_ne _ _ hA hwt4
    have hjt : joinWordsL (wordsL "Copy code Show thinking".data)
        = "Copy code Show thinking".data := by decide
    have hlit0 : (' ' :: "Copy code Show thinking".data) = " Copy code Show thinking".data := by
      decide
    rw [hsplit, hjt, hlit0]
    have hno1 := no_occ_left_of_not_contains showThinkingL (joinWordsL (wordsL answer))
      " Copy code Show thinking".data h1 (by decide)
    rw [removeAllL_append_no_occ showThinkingL _ _ hno1]
    rw [show removeAllL showThinkingL " Copy code Show thinking".data = " Copy code ".data from
      by decide]
    rw [stripL_append_join _ hWLa hA " Copy code ".data]
    rw [if_neg (by decide)]
    rw [show rstripL " Copy code ".data = " Copy code".data from by decide]
    have hcc : containsSubL copyCodeL (joinWordsL (wordsL answer)) = false :=
      not_contains_of_starts ⟨" code".data, by decide⟩ h2
    have hno2 := no_occ_left_of_not_contains copyCodeL (joinWordsL (wordsL answer))
      " Copy code".data hcc (by decide)
    rw [removeAllL_append_no_occ copyCodeL _ _ hno2]
    rw [show removeAllL copyCodeL " Copy code".data = " ".data from by decide]
    rw [stripL_append_join _ hWLa hA " ".data]
    rw [if_pos (by decide)]
    rw [removeAllL_of_not_contains copyL _ h2]
    rw [stripL_joinWordsL _ hWLa]
    rw [removeAllL_of_not_contains geminiNoticeL _ h3]
    rw [stripL_joinWordsL _ hWLa]

/-- Claim C7 (corrected): for every question `q` and every answer whose
whitespace-normalised form contains none of the UI-chrome phrases
(`"Show thinking"`, `"Copy"` — hence also `"Copy code"` — and the
disclaimer footer), `_clean_response_text` applied to
`q + " " + answer + " Copy code Show thinking"` with question `q` yields
exactly the answer with whitespace runs collapsed to single spaces and
surrounding whitespace trimmed.  (Unconditionally, the claim is false: the
UI-phrase removal also rewrites occurrences inside the answer itself, see
the counterexample.) -/
theorem c7_roundtrip_amended :
    ∀ (q answer : List Char),
      containsSubL showThinkingL (collapseWs (stripL answer)) = false →
      containsSubL copyL (collapseWs (stripL answer)) = false →
      containsSubL geminiNoticeL (collapseWs (stripL answer)) = false →
      cleanResponseText (q ++ " ".data ++ answer ++ " Copy code Show thinking".data) q
        = collapseWs (stripL answer) := by
  intro q answer h1 h2 h3
  have hca : collapseWs (stripL answer) = joinWordsL (wordsL answer) :=
    collapse_strip_eq_join answer
  rw [hca] at h1 h2 h3
  have hraw : q ++ " ".data ++ answer ++ " Copy code Show thinking".data
      = q ++ ' ' :: (answer ++ ' ' :: "Copy code Show thinking".data) := by
    simp [List.append_assoc]
  have hne : q ++ " ".data ++ answer ++ " Copy code Show thinking".data ≠ [] := by
    rw [hraw]
    simp
  have hw0 : collapseWs (stripL (q ++ " ".data ++ answer ++ " Copy code Show thinking".data))
      = joinWordsL (wordsL q ++ (wordsL answer ++ wordsL "Copy code Show thinking".data)) := by
    rw [hraw, collapse_strip_eq_join, wordsL_append_space, wordsL_append_space]
  have hwt4 : wordsL "Copy code Show thinking".data ≠ [] := by decide
  have hWLa := wordsL_wordlist answer
  have hWLt := wordsL_wordlist "Copy code Show thinking".data
  have hWLat : WordListP (wordsL answer ++ wordsL "Copy code Show thinking".data) :=
    wordlist_append hWLa hWLt
  have hATne : wordsL answer ++ wordsL "Copy code Show thinking".data ≠ [] := by
    intro hz
    rcases List.append_eq_nil.mp hz with ⟨_, hz2⟩
    exact hwt4 hz2
  rw [cleanResponseText_unfold _ q hne, hca]
  by_cases hq0 : q = []
  · subst hq0
    rw [if_neg (by simp)]
    rw [hw0]
    simp only [wordsL_nil, List.nil_append]
    exact clean_ui_stages answer h1 h2 h3
  · rw [if_pos hq0]
    by_cases hwq : wordsL q = []
    · have hqc0 : collapseWs (stripL q) = [] := by
        rw [collapse_strip_eq_join q, hwq]
        rfl
      have hpref : (collapseWs (stripL q)).isPrefixOf
          (collapseWs (stripL (q ++ " ".data ++ answer ++ " Copy code Show thinking".data)))
          = true := by
        rw [hqc0, List.isPrefixOf_iff_prefix]
        exact ⟨_, rfl⟩
      rw [if_pos hpref, hqc0]
      simp only [List.length_nil, List.drop_zero]
      rw [hw0, hwq, List.nil_append]
      rw [stripL_joinWordsL _ hWLat]
      exact clean_ui_stages answer h1 h2 h3
    · have hqc : collapseWs (stripL q) = joinWordsL (wordsL q) := collapse_strip_eq_join q
      have hpref : (collapseWs (stripL q)).isPrefixOf
          (collapseWs (stripL (q ++ " ".data ++ answer ++ " Copy code Show thinking".data)))
          = true := by
        rw [hqc, hw0, joinWordsL_append_ne _ _ hwq hATne, List.isPrefixOf_iff_prefix]
        exact ⟨_, rfl⟩
      rw [if_pos hpref, hqc, hw0, joinWordsL_append_ne _ _ hwq hATne]
      rw [List.drop_left]
      rw [stripL_cons_ws _ _ (by decide)]
      rw [stripL_joinWordsL _ hWLat]
      exact clean_ui_stages answer h1 h2 h3

/-- Claim C7 counterexample: with question `"hi"` and answer `"Copy this"`,
`_clean_response_text("hi Copy this Copy code Show thinking", "hi")` yields
`"this"`, not `"Copy this"` — the UI-phrase removal also deletes the
occurrence of `"Copy"` inside the answer itself. -/
theorem c7_roundtrip_counterexample :
    cleanResponseText ("hi".data ++ " ".data ++ "Copy this".data
        ++ " Copy code Show thinking".data) "hi".data = "this".data
    ∧ collapseWs (stripL "Copy this".data) = "Copy this".data
    ∧ ("this".data : List Char) ≠ "Copy this".data := by
  refine ⟨by decide, by decide, by decide⟩

/-- Witness for `c7_roundtrip_amended` at question `"ab"`, answer `"cd"`. -/
theorem c7_roundtrip_amended_witness :
    cleanResponseText ("ab".data ++ " ".data ++ "cd".data
        ++ " Copy code Show thinking".data) "ab".data = collapseWs (stripL "cd".data) :=
  c7_roundtrip_amended "ab".data "cd".data (by decide) (by decide) (by decide)

/-- Claim C2 (corrected): whenever the sanitisation-and-validation pipeline
accepts the cleaned text, the cleaned text differs from the submitted
question after lowercasing and trimming surrounding whitespace — this is
exactly the echo check of `_validate_response`.  (The original claim's
whitespace-insensitive comparison fails: internal whitespace runs are not
normalised by the check, see the counterexample.) -/
theorem c2_strip_case_insensitive_neq :
    ∀ (raw q : List Char),
      validateResponse (cleanResponseText raw q) q = true →
      lowerL (stripL (cleanResponseText raw q)) ≠ lowerL (stripL q) := by
  intro raw q h hEq
  have hfalse : validateResponse (cleanResponseText raw q) q = false := by
    unfold validateResponse
    by_cases hlen : (cleanResponseText raw q).length < 1
        ∨ (cleanResponseText raw q).length > 10000
    · rw [if_pos hlen]
    · rw [if_neg hlen, if_pos hEq]
  rw [hfalse] at h
  exact absurd h (by simp)

/-- Claim C2 counterexample: with question `"hi  there"` (two internal
spaces) and raw text `"hi  there hi  there"`, the pipeline accepts the
cleaned text `"hi there"`, yet that text equals the question under
case-insensitive comparison after whitespace-run normalisation. -/
theorem c2_whitespace_counterexample :
    validateResponse (cleanResponseText "hi  there hi  there".data "hi  there".data)
        "hi  there".data = true
    ∧ lowerL (collapseWs (stripL (cleanResponseText "hi  there hi  there".data
        "hi  there".data)))
      = lowerL (collapseWs (stripL "hi  there".data)) := by
  refine ⟨by decide, by decide⟩

/-- Witness for `c2_strip_case_insensitive_neq` at raw `"hello world hello"`,
question `"hello"`. -/
theorem c2_strip_case_insensitive_neq_witness :
    lowerL (stripL (cleanResponseText "hello world hello".data "hello".data))
      ≠ lowerL (stripL "hello".data) :=
  c2_strip_case_insensitive_neq "hello world hello".data "hello".data (by decide)

theorem isDigit_not_ws {c : Char} (h : c.isDigit = true) : wsChar c = false := by
  cases hx : wsChar c
  · rfl
  · exfalso
    unfold wsChar at hx
    simp [Char.isWhitespace] at hx
    rcases hx with ((h1 | h1) | h1) | h1 <;> (subst h1; exact absurd h (by decide))

theorem strip_nonempty_of_digit {r : List Char} (h : containsDigitL r = true) :
    1 ≤ (stripL r).length := by
  unfold containsDigitL at h
  rw [List.any_eq_true] at h
  obtain ⟨c, hc, hd⟩ := h
  have hmem := mem_stripL_of_nonws hc (isDigit_not_ws hd)
  cases hx : stripL r
  · rw [hx] at hmem
    simp at hmem
  · simp

/-- Claim C3 (corrected): the math-question override of `_validate_response`
accepts any digit-containing response of admissible length only after the
earlier rejection rules have passed: it does not override the echo rule nor
the rule rejecting a response that contains the question and is shorter
than twice the question's length (those run first); it overrides only the
later minimum-length and placeholder rules.  The two concrete evaluations
of the claim hold: `validate("4", "What is 2+2?")` is true and
`validate("loading", "What is 2+2?")` is false. -/
theorem c3_math_override_amended :
    (∀ (q r : List Char),
      isMathQuestion (lowerL q) = true →
      containsDigitL r = true →
      1 ≤ r.length → r.length ≤ 10000 →
      lowerL (stripL r) ≠ lowerL (stripL q) →
      ¬(containsSubL (lowerL q) (lowerL r) = true ∧ r.length < q.length * 2) →
      validateResponse r q = true)
    ∧ validateResponse "4".data "What is 2+2?".data = true
    ∧ validateResponse "loading".data "What is 2+2?".data = false := by
  refine ⟨?_, by decide, by decide⟩
  intro q r hmath hdig hlen1 hlen2 hneq hnc
  unfold validateResponse
  rw [if_neg (by omega)]
  rw [if_neg hneq]
  rw [if_neg hnc]
  rw [if_pos ⟨hmath, hdig, strip_nonempty_of_digit hdig⟩]

/-- Claim C3 counterexample: the response `"What is 2+2? 4"` to the
math-style question `"What is 2+2?"` contains a digit, has admissible
length, and is not a case/strip-insensitive echo, yet `_validate_response`
rejects it — the containment rule (response contains the question and is
shorter than twice its length) runs before the math override and is not
overridden by it. -/
theorem c3_math_override_counterexample :
    isMathQuestion (lowerL "What is 2+2?".data) = true
    ∧ containsDigitL "What is 2+2? 4".data = true
    ∧ 1 ≤ ("What is 2+2? 4".data : List Char).length
    ∧ ("What is 2+2? 4".data : List Char).length ≤ 10000
    ∧ lowerL (stripL "What is 2+2? 4".data) ≠ lowerL (stripL "What is 2+2?".data)
    ∧ validateResponse "What is 2+2? 4".data "What is 2+2?".data = false := by
  refine ⟨by decide, by decide, by decide, by decide, by decide, by decide⟩

/-- Witness for `c3_math_override_amended` at question `"What is 2+2?"`,
response `"It equals 4."`. -/
theorem c3_math_override_amended_witness :
    validateResponse "It equals 4.".data "What is 2+2?".data = true :=
  c3_math_override_amended.1 "What is 2+2?".data "It equals 4.".data
    (by decide) (by decide) (by decide) (by decide) (by decide) (by decide)

/-- Claim C10 (confirmed): a text that equals the question after stripping
and lowercasing is never classified complete by `_is_response_complete` —
the echo check runs before every acceptance rule, including the math
override. -/
theorem c10_echo_not_complete :
    ∀ (t q : List Char),
      lowerL (stripL t) = lowerL (stripL q) →
      isResponseComplete t q = false := by
  intro t q h
  unfold isResponseComplete
  by_cases ht : t = []
  · rw [if_pos ht]
  · rw [if_neg ht, if_pos h]

/-- Witness for `c10_echo_not_complete` at text `" ABC "`, question `"abc"`. -/
theorem c10_echo_not_complete_witness :
    isResponseComplete " ABC ".data "abc".data = false :=
  c10_echo_not_complete " ABC ".data "abc".data (by decide)

/-!  ## Monitor-loop lemmas  -/

theorem monitorStep_growth (q : List Char) (st : MonState) (cur : List Char)
    (h : st.lastLength < cur.length) :
    monitorStep q st cur = StepResult.next ⟨cur.length, cur, 0⟩ := by
  unfold monitorStep
  rw [if_pos (by omega)]

theorem monitorStep_small (q : List Char) (st : MonState) (cur : List Char)
    (h : ¬(cur.length > st.lastLength) )
    (h2 : ¬(cur.length = st.lastLength ∧ cur.length > 0)) :
    monitorStep q st cur = StepResult.next st := by
  unfold monitorStep
  rw [if_neg h, if_neg h2]

theorem monitorStep_next_state (q : List Char) (st : MonState) (cur : List Char)
    (st2 : MonState) (h : monitorStep q st cur = StepResult.next st2) :
    st2.lastLength = max st.lastLength cur.length
    ∧ (st2.lastText = st.lastText ∨ st2.lastText = cur)
    ∧ (st.lastText.length = st.lastLength → st2.lastText.length = st2.lastLength) := by
  simp only [monitorStep] at h
  by_cases h1 : cur.length > st.lastLength
  · rw [if_pos h1] at h
    injection h with h0
    subst h0
    exact ⟨by simp; omega, Or.inr rfl, fun _ => rfl⟩
  · rw [if_neg h1] at h
    by_cases h2 : cur.length = st.lastLength ∧ cur.length > 0
    · rw [if_pos h2] at h
      by_cases h3 : cur = st.lastText
      · rw [if_pos h3] at h
        by_cases h4 : 6 ≤ st.stableCount + 1
        · rw [if_pos h4] at h
          by_cases h5 : isResponseComplete cur q = true
          · rw [if_pos h5] at h
            exact absurd h (by simp)
          · rw [if_neg h5] at h
            injection h with h0
            subst h0
            exact ⟨by simp; omega, Or.inl rfl, fun hx => hx⟩
        · rw [if_neg h4] at h
          injection h with h0
          subst h0
          exact ⟨by simp; omega, Or.inl rfl, fun hx => hx⟩
      · rw [if_neg h3] at h
        injection h with h0
        subst h0
        refine ⟨by simp; omega, Or.inr rfl, fun hx => ?_⟩
        simp
        omega
    · rw [if_neg h2] at h
      injection h with h0
      subst h0
      exact ⟨by simp; omega, Or.inl rfl, fun hx => hx⟩

theorem le_foldl_maxlen : ∀ (obs : List (List Char)) (a : Nat),
    a ≤ obs.foldl (fun x o => max x o.length) a := by
  intro obs
  induction obs with
  | nil => intro a; exact le_rfl
  | cons o os ih =>
    intro a
    calc a ≤ max a o.length := le_max_left a o.length
    _ ≤ os.foldl (fun x o => max x o.length) (max a o.length) := ih (max a o.length)

theorem runStates_fold : ∀ (q : List Char) (obs : List (List Char)) (st st2 : MonState),
    runStates q obs st = some st2 →
    st2.lastLength = obs.foldl (fun a o => max a o.length) st.lastLength
    ∧ (st2.lastText = st.lastText ∨ st2.lastText ∈ obs)
    ∧ (st.lastText.length = st.lastLength → st2.lastText.length = st2.lastLength) := by
  intro q obs
  induction obs with
  | nil =>
    intro st st2 h
    simp only [runStates] at h
    injection h with h0
    subst h0
    exact ⟨rfl, Or.inl rfl, fun hx => hx⟩
  | cons o os ih =>
    intro st st2 h
    simp only [runStates] at h
    cases hstep : monitorStep q st o with
    | finished t => rw [hstep] at h; simp at h
    | next st1 =>
      rw [hstep] at h
      obtain ⟨hlen, htext, hinv⟩ := monitorStep_next_state q st o st1 hstep
      obtain ⟨hlen2, htext2, hinv2⟩ := ih st1 st2 h
      refine ⟨?_, ?_, ?_⟩
      · rw [hlen2, hlen]
        simp [List.foldl_cons]
      · rcases htext2 with hx | hx
        · rcases htext with hy | hy
          · exact Or.inl (hx.trans hy)
          · exact Or.inr (by rw [hx, hy]; exact List.mem_cons_self o os)
        · exact Or.inr (List.mem_cons_of_mem o hx)
      · intro hx
        exact hinv2 (hinv hx)

theorem monitorRun_of_runStates : ∀ (q : List Char) (obs : List (List Char)) (st st2 : MonState),
    runStates q obs st = some st2 →
    monitorRun q obs st = monitorTimeout st2.lastText := by
  intro q obs
  induction obs with
  | nil =>
    intro st st2 h
    simp only [runStates] at h
    injection h with h0
    subst h0
    rfl
  | cons o os ih =>
    intro st st2 h
    simp only [runStates] at h
    cases hstep : monitorStep q st o with
    | finished t => rw [hstep] at h; simp at h
    | next st1 =>
      rw [hstep] at h
      simp only [monitorRun]
      rw [hstep]
      exact ih st1 st2 h

/-- Claim C4 (corrected): in the polling loop of
`_monitor_response_completion`, a strict length increase resets
`stable_count` to 0 and records the new length and text; when the observed
text is **non-empty** and equals the recorded text, `stable_count` is
incremented by exactly 1, the completeness classifier runs only once the
incremented count reaches 6, and a not-complete verdict resets the count to
0 while polling continues.  (The original claim's unconditional increment
fails when the equal text is empty — the `current_length > 0` guard skips
the whole stable branch, see the counterexample.)  The recorded text's
length always equals the recorded length, justifying the hypothesis. -/
theorem c4_stability_amended :
    ∀ (q cur : List Char) (st : MonState),
      (st.lastLength < cur.length →
        monitorStep q st cur = StepResult.next ⟨cur.length, cur, 0⟩)
      ∧ (cur = st.lastText → cur = [] → monitorStep q st cur = StepResult.next st)
      ∧ (st.lastText.length = st.lastLength → cur = st.lastText → cur ≠ [] →
          ((st.stableCount + 1 < 6 →
            monitorStep q st cur
              = StepResult.next ⟨st.lastLength, st.lastText, st.stableCount + 1⟩)
          ∧ (6 ≤ st.stableCount + 1 →
              (isResponseComplete cur q = true →
                monitorStep q st cur = StepResult.finished cur)
              ∧ (isResponseComplete cur q = false →
                monitorStep q st cur = StepResult.next ⟨st.lastLength, st.lastText, 0⟩))))
      ∧ (∀ st2, monitorStep q st cur = StepResult.next st2 →
          st.lastText.length = st.lastLength → st2.lastText.length = st2.lastLength) := by
  intro q cur st
  refine ⟨monitorStep_growth q st cur, ?_, ?_, ?_⟩
  · intro heq hnil
    subst hnil
    have hlt : st.lastText = [] := heq.symm
    refine monitorStep_small q st [] (by simp) (by simp)
  · intro hinv heq hne
    have hlen : cur.length = st.lastLength := by rw [heq, hinv]
    have hpos : cur.length > 0 := by
      cases hc : cur
      · exact absurd hc hne
      · simp [hc]
    constructor
    · intro hlow
      simp only [monitorStep]
      rw [if_neg (by omega), if_pos ⟨hlen, hpos⟩, if_pos heq, if_neg (by omega)]
    · intro hhigh
      constructor
      · intro hcomp
        simp only [monitorStep]
        rw [if_neg (by omega), if_pos ⟨hlen, hpos⟩, if_pos heq, if_pos hhigh, if_pos hcomp]
      · intro hcomp
        simp only [monitorStep]
        rw [if_neg (by omega), if_pos ⟨hlen, hpos⟩, if_pos heq, if_pos hhigh,
          if_neg (by simp [hcomp])]
  · intro st2 hstep hinv
    exact (monitorStep_next_state q st cur st2 hstep).2.2 hinv

/-- Claim C4 counterexample: at the initial state the observed empty text
equals the recorded text, yet `stable_count` is not incremented — the
state is returned unchanged (the source requires `current_length > 0`). -/
theorem c4_stability_counterexample :
    ("".data : List Char) = initMonState.lastText
    ∧ monitorStep "q".data initMonState "".data = StepResult.next initMonState
    ∧ StepResult.next initMonState
        ≠ StepResult.next ⟨initMonState.lastLength, initMonState.lastText,
            initMonState.stableCount + 1⟩ := by
  refine ⟨by decide, by decide, by decide⟩

/-- Witness for `c4_stability_amended`: a non-empty stable observation below
the threshold increments the counter by exactly 1. -/
theorem c4_stability_amended_witness :
    monitorStep "z".data ⟨4, "abcd".data, 2⟩ "abcd".data
      = StepResult.next ⟨4, "abcd".data, 3⟩ :=
  ((c4_stability_amended "z".data "abcd".data ⟨4, "abcd".data, 2⟩).2.2.1
    (by decide) (by decide) (by decide)).1 (by decide)

/-- Claim C5 (confirmed): when the polling loop reaches its overall timeout
(the observation list is exhausted without a completeness verdict),
`_monitor_response_completion` returns the recorded text as a partial
result if and only if its length strictly exceeds 50 characters, and
otherwise returns nothing. -/
theorem c5_timeout_result :
    ∀ (q : List Char) (obs : List (List Char)) (st st2 : MonState),
      runStates q obs st = some st2 →
      ((monitorRun q obs st = some st2.lastText ↔ 50 < st2.lastText.length)
       ∧ (st2.lastText.length ≤ 50 → monitorRun q obs st = none)) := by
  intro q obs st st2 h
  have hrun := monitorRun_of_runStates q obs st st2 h
  have hne_of : 50 < st2.lastText.length → st2.lastText ≠ [] := by
    intro hx hz
    rw [hz] at hx
    simp at hx
  refine ⟨⟨?_, ?_⟩, ?_⟩
  · intro hx
    rw [hrun] at hx
    unfold monitorTimeout at hx
    by_cases hc : st2.lastText ≠ [] ∧ 50 < st2.lastText.length
    · exact hc.2
    · rw [if_neg hc] at hx
      exact absurd hx (by simp)
  · intro hx
    rw [hrun]
    unfold monitorTimeout
    rw [if_pos ⟨hne_of hx, hx⟩]
  · intro hx
    rw [hrun]
    unfold monitorTimeout
    rw [if_neg ?_]
    intro hc
    omega

/-- Witness for `c5_timeout_result`: a single 80-character observation, then
timeout; the monitor returns the 80-character text as a partial result. -/
theorem c5_timeout_result_witness :
    monitorRun "q".data ["aaaaaaaaaaaaaaaaaaaaaaaaaaaaaaaaaaaaaaaaaaaaaaaaaaaaaaaaaaaaaaaaaaaaaaaaaaaaaaaa".data] initMonState = some "aaaaaaaaaaaaaaaaaaaaaaaaaaaaaaaaaaaaaaaaaaaaaaaaaaaaaaaaaaaaaaaaaaaaaaaaaaaaaaaa".data := by
  have h := c5_timeout_result "q".data ["aaaaaaaaaaaaaaaaaaaaaaaaaaaaaaaaaaaaaaaaaaaaaaaaaaaaaaaaaaaaaaaaaaaaaaaaaaaaaaaa".data] initMonState
    ⟨80, "aaaaaaaaaaaaaaaaaaaaaaaaaaaaaaaaaaaaaaaaaaaaaaaaaaaaaaaaaaaaaaaaaaaaaaaaaaaaaaaa".data, 0⟩ (by decide)
  exact h.1.mpr (by decide)

/-- Claim C9 (confirmed): a poll whose text is strictly shorter than the
recorded `last_length` leaves the monitor state entirely unchanged;
`last_length` is monotonically non-decreasing along a run; and at timeout
the recorded text's length equals the maximum observed length (the longest
text ever recorded, not necessarily the last observed). -/
theorem c9_shrink_monotone :
    (∀ (q cur : List Char) (st : MonState),
        cur.length < st.lastLength → monitorStep q st cur = StepResult.next st)
    ∧ (∀ (q : List Char) (obs : List (List Char)) (st st2 : MonState),
        runStates q obs st = some st2 → st.lastLength ≤ st2.lastLength)
    ∧ (∀ (q : List Char) (obs : List (List Char)) (st2 : MonState),
        runStates q obs initMonState = some st2 →
          st2.lastLength = maxObsLen obs
          ∧ st2.lastText.length = st2.lastLength
          ∧ (st2.lastText = [] ∨ st2.lastText ∈ obs)) := by
  refine ⟨?_, ?_, ?_⟩
  · intro q cur st h
    exact monitorStep_small q st cur (by omega) (by omega)
  · intro q obs st st2 h
    have hx := (runStates_fold q obs st st2 h).1
    rw [hx]
    exact le_foldl_maxlen obs st.lastLength
  · intro q obs st2 h
    obtain ⟨h1, h2, h3⟩ := runStates_fold q obs initMonState st2 h
    refine ⟨by simpa [maxObsLen, initMonState] using h1, h3 rfl, ?_⟩
    rcases h2 with hx | hx
    · exact Or.inl hx
    · exact Or.inr hx

/-- Witness for `c9_shrink_monotone`: a 1-character observation against a
recorded length of 60 leaves the state unchanged. -/
theorem c9_shrink_monotone_witness :
    monitorStep "q".data ⟨60, "bbbbbbbbbbbbbbbbbbbbbbbbbbbbbbbbbbbbbbbbbbbbbbbbbbbbbbbbbbbb".data, 0⟩ "x".data
      = StepResult.next ⟨60, "bbbbbbbbbbbbbbbbbbbbbbbbbbbbbbbbbbbbbbbbbbbbbbbbbbbbbbbbbbbb".data, 0⟩ :=
  c9_shrink_monotone.1 "q".data "x".data ⟨60, "bbbbbbbbbbbbbbbbbbbbbbbbbbbbbbbbbbbbbbbbbbbbbbbbbbbbbbbbbbbb".data, 0⟩ (by decide)


/-!  ## Correlation lemmas  -/

theorem readUntilReply_found (commandId : Nat) : ∀ (stream d : List CdpMessage)
    (m : CdpMessage) (rest : List CdpMessage),
    readUntilReply commandId stream = (d, some (m, rest)) →
    stream = d ++ m :: rest ∧ m.id = some commandId ∧ ∀ x ∈ d, x.id ≠ some commandId := by
  intro stream
  induction stream with
  | nil =>
    intro d m rest h
    simp [readUntilReply] at h
  | cons a s ih =>
    intro d m rest h
    simp only [readUntilReply] at h
    by_cases hid : a.id = some commandId
    · rw [if_pos hid] at h
      rw [Prod.mk.injEq] at h
      obtain ⟨hd, ho⟩ := h
      injection ho with ho2
      rw [Prod.mk.injEq] at ho2
      obtain ⟨hm, hrest⟩ := ho2
      subst hd
      subst hm
      subst hrest
      exact ⟨by simp, hid, by simp⟩
    · rw [if_neg hid] at h
      rcases hr : readUntilReply commandId s with ⟨d2, o2⟩
      rw [hr] at h
      rw [Prod.mk.injEq] at h
      obtain ⟨hd, ho⟩ := h
      have ho2 : o2 = some (m, rest) := ho
      have hd2 : a :: d2 = d := hd
      subst hd2
      obtain ⟨hs, hm, hall⟩ := ih d2 m rest (by rw [hr, ho2])
      refine ⟨by rw [List.cons_append, hs], hm, ?_⟩
      intro x hx
      rcases List.mem_cons.mp hx with h1 | h1
      · rw [h1]
        exact hid
      · exact hall x h1

theorem readUntilReply_exhausted (commandId : Nat) : ∀ (stream d : List CdpMessage),
    readUntilReply commandId stream = (d, none) →
    d = stream ∧ ∀ x ∈ stream, x.id ≠ some commandId := by
  intro stream
  induction stream with
  | nil =>
    intro d h
    simp [readUntilReply] at h
    simp [h]
  | cons a s ih =>
    intro d h
    simp only [readUntilReply] at h
    by_cases hid : a.id = some commandId
    · rw [if_pos hid] at h
      rw [Prod.mk.injEq] at h
      exact absurd h.2 (by simp)
    · rw [if_neg hid] at h
      rcases hr : readUntilReply commandId s with ⟨d2, o2⟩
      rw [hr] at h
      rw [Prod.mk.injEq] at h
      obtain ⟨hd, ho⟩ := h
      have ho2 : o2 = none := ho
      have hd2 : a :: d2 = d := hd
      obtain ⟨hds, hall⟩ := ih d2 (by rw [hr, ho2])
      subst hd2
      refine ⟨by rw [hds], ?_⟩
      intro x hx
      rcases List.mem_cons.mp hx with h1 | h1
      · rw [h1]
        exact hid
      · exact hall x h1

theorem sendCommand_spec (messageId : Nat) (stream : List CdpMessage) :
    (sendCommand messageId stream).1.assignedId = messageId
    ∧ (sendCommand messageId stream).2.1 = messageId + 1
    ∧ (∀ m, (sendCommand messageId stream).1.reply = some m → m.id = some messageId)
    ∧ (∀ m ∈ (sendCommand messageId stream).1.discarded, m.id ≠ some messageId) := by
  unfold sendCommand
  rcases hr : readUntilReply messageId stream with ⟨d, o⟩
  cases o with
  | none =>
    obtain ⟨hds, hall⟩ := readUntilReply_exhausted messageId stream d hr
    subst hds
    refine ⟨rfl, rfl, ?_, ?_⟩
    · intro m hm
      simp at hm
    · intro m hm
      exact hall m hm
  | some p =>
    rcases p with ⟨m0, rest⟩
    obtain ⟨hs, hm0, hall⟩ := readUntilReply_found messageId stream d m0 rest hr
    refine ⟨rfl, rfl, ?_, ?_⟩
    · intro m hm
      simp at hm
      rw [← hm]
      exact hm0
    · intro m hm
      exact hall m hm

theorem runSends_ids : ∀ (n start : Nat) (stream : List CdpMessage),
    (runSends n start stream).map SendRecord.assignedId = List.range' start n := by
  intro n
  induction n with
  | zero => intro start stream; rfl
  | succ n ih =>
    intro start stream
    simp only [runSends, List.map_cons, List.range'_succ]
    refine congrArg₂ List.cons ?_ ?_
    · exact (sendCommand_spec start stream).1
    · rw [ih ((sendCommand start stream).2.1) ((sendCommand start stream).2.2)]
      rw [(sendCommand_spec start stream).2.1]

theorem runSends_records : ∀ (n start : Nat) (stream : List CdpMessage)
    (r : SendRecord), r ∈ runSends n start stream →
    (∀ m, r.reply = some m → m.id = some r.assignedId)
    ∧ (∀ m ∈ r.discarded, m.id ≠ some r.assignedId) := by
  intro n
  induction n with
  | zero =>
    intro start stream r h
    simp [runSends] at h
  | succ n ih =>
    intro start stream r h
    simp only [runSends] at h
    rcases List.mem_cons.mp h with h1 | h1
    · subst h1
      obtain ⟨hid, _, hrep, hdis⟩ := sendCommand_spec start stream
      rw [hid]
      exact ⟨hrep, hdis⟩
    · exact ih _ _ r h1

/-- Claim C1 (confirmed): starting from the initial counter value 1, `N`
sequential `_send_command` calls (each on a command without an `id`) are
assigned exactly the correlation ids `1..N` in increasing order with no
reuse; each call's reply is the first incoming message whose `id` equals
the id it assigned (the stream decomposes as the discarded prefix, the
matching reply, and the unread rest), and every discarded intervening
message lacks the matching id. -/
theorem c1_correlation :
    ∀ (n : Nat) (stream : List CdpMessage),
      ((runSends n 1 stream).map SendRecord.assignedId = List.range' 1 n)
      ∧ (∀ r ∈ runSends n 1 stream,
          (∀ m, r.reply = some m → m.id = some r.assignedId)
          ∧ (∀ m ∈ r.discarded, m.id ≠ some r.assignedId))
      ∧ (∀ (commandId : Nat) (s d : List CdpMessage) (m : CdpMessage)
          (rest : List CdpMessage),
          readUntilReply commandId s = (d, some (m, rest)) →
          s = d ++ m :: rest ∧ m.id = some commandId
          ∧ ∀ x ∈ d, x.id ≠ some commandId) := by
  intro n stream
  exact ⟨runSends_ids n 1 stream,
    fun r hr => runSends_records n 1 stream r hr,
    fun commandId s d m rest h => readUntilReply_found commandId s d m rest h⟩

/-- Witness for `c1_correlation`: two sends over a stream with an
interleaved event; the assigned ids are `[1, 2]`. -/
theorem c1_correlation_witness :
    (runSends 2 1 [⟨none, "event"⟩, ⟨some 1, "reply1"⟩, ⟨some 2, "reply2"⟩]).map
        SendRecord.assignedId = List.range' 1 2 :=
  (c1_correlation 2 [⟨none, "event"⟩, ⟨some 1, "reply1"⟩, ⟨some 2, "reply2"⟩]).1

/-!  ## Tree-walk lemmas  -/

theorem verify_iff (n : DomNode) (qlen : Nat) :
    verifyCommonParent n qlen = true
      ↔ (0 < n.responseCount ∨ (qlen < n.totalTextLen ∧ n.totalTextLen < qlen * 3)) := by
  unfold verifyCommonParent
  split_ifs with h1 h2
  · constructor
    · intro _
      exact Or.inl h1
    · intro _
      rfl
  · constructor
    · intro _
      exact Or.inr ⟨h2.1, h2.2⟩
    · intro _
      rfl
  · constructor
    · intro hx
      exact absurd hx (by simp)
    · intro hx
      rcases hx with hx | hx
      · exact absurd hx h1
      · exact absurd hx h2

theorem walkUpAux_sound (qlen : Nat) : ∀ (chain : List DomNode) (lvl : Nat) (n : DomNode),
    walkUpAux qlen chain lvl = some n →
    n ∈ chain.take (10 - lvl)
    ∧ (hasConvKeyword n = true ∨ lengthPromotion n qlen = true)
    ∧ verifyCommonParent n qlen = true := by
  intro chain
  induction chain with
  | nil =>
    intro lvl n h
    simp [walkUpAux] at h
  | cons a rest ih =>
    intro lvl n h
    simp only [walkUpAux] at h
    by_cases hl : lvl < 10
    · rw [if_pos hl] at h
      obtain ⟨k, hk⟩ : ∃ k, 10 - lvl = k + 1 := ⟨10 - lvl - 1, by omega⟩
      by_cases h1 : hasConvKeyword a = true ∧ verifyCommonParent a qlen = true
      · rw [if_pos h1] at h
        injection h with h0
        subst h0
        rw [hk, List.take_succ_cons]
        exact ⟨List.mem_cons_self _ _, Or.inl h1.1, h1.2⟩
      · rw [if_neg h1] at h
        by_cases h2 : lengthPromotion a qlen = true ∧ verifyCommonParent a qlen = true
        · rw [if_pos h2] at h
          injection h with h0
          subst h0
          rw [hk, List.take_succ_cons]
          exact ⟨List.mem_cons_self _ _, Or.inr h2.1, h2.2⟩
        · rw [if_neg h2] at h
          obtain ⟨hmem, hcrit, hver⟩ := ih (lvl + 1) n h
          have hk2 : 10 - (lvl + 1) = k := by omega
          rw [hk2] at hmem
          rw [hk, List.take_succ_cons]
          exact ⟨List.mem_cons_of_mem a hmem, hcrit, hver⟩
    · rw [if_neg hl] at h
      simp at h

theorem walkUpAux_none (qlen : Nat) : ∀ (chain : List DomNode) (lvl : Nat),
    (∀ n ∈ chain.take (10 - lvl),
      ¬((hasConvKeyword n = true ∨ lengthPromotion n qlen = true)
        ∧ verifyCommonParent n qlen = true)) →
    walkUpAux qlen chain lvl = none := by
  intro chain
  induction chain with
  | nil =>
    intro lvl _
    rfl
  | cons a rest ih =>
    intro lvl h
    simp only [walkUpAux]
    by_cases hl : lvl < 10
    · rw [if_pos hl]
      obtain ⟨k, hk⟩ : ∃ k, 10 - lvl = k + 1 := ⟨10 - lvl - 1, by omega⟩
      have hmem : a ∈ (a :: rest).take (10 - lvl) := by
        rw [hk, List.take_succ_cons]
        exact List.mem_cons_self _ _
      have ha := h a hmem
      rw [if_neg (fun hx => ha ⟨Or.inl hx.1, hx.2⟩)]
      rw [if_neg (fun hx => ha ⟨Or.inr hx.1, hx.2⟩)]
      refine ih (lvl + 1) ?_
      intro n hn
      refine h n ?_
      have hk2 : 10 - (lvl + 1) = k := by omega
      rw [hk2] at hn
      rw [hk, List.take_succ_cons]
      exact List.mem_cons_of_mem a hn
    · rw [if_neg hl]

theorem walkUpAux_take (qlen : Nat) : ∀ (chain : List DomNode) (lvl : Nat),
    walkUpAux qlen chain lvl = walkUpAux qlen (chain.take (10 - lvl)) lvl := by
  intro chain
  induction chain with
  | nil =>
    intro lvl
    rw [List.take_nil]
  | cons a rest ih =>
    intro lvl
    by_cases hl : lvl < 10
    · obtain ⟨k, hk⟩ : ∃ k, 10 - lvl = k + 1 := ⟨10 - lvl - 1, by omega⟩
      rw [hk, List.take_succ_cons]
      simp only [walkUpAux]
      rw [if_pos hl, if_pos hl]
      have hk2 : 10 - (lvl + 1) = k := by omega
      have := ih (lvl + 1)
      rw [hk2] at this
      rw [this]
    · have hk0 : 10 - lvl = 0 := by omega
      rw [hk0, List.take_zero]
      simp only [walkUpAux]
      rw [if_neg hl]

/-- Claim C8 (confirmed): `_walk_up_dom_tree` examines at most 10 levels of
the ancestor chain (the walk's outcome only depends on the first 10 nodes,
the anchor itself being level 0); a node is returned only if it satisfies a
promotion criterion (a conversation-keyword class or text length more than
20% above the question length, the float literal `1.2` read as the exact
ratio 6/5) and passes verification; verification passes exactly when a
response-pattern descendant exists or the total text length lies strictly
between 1x and 3x the question length; and if no node among the first 10
satisfies promotion-plus-verification, the walk returns no container. -/
theorem c8_walk_characterization :
    ∀ (chain : List DomNode) (qlen : Nat),
      (walkUpDomTree chain qlen = walkUpDomTree (chain.take 10) qlen)
      ∧ (∀ n, walkUpDomTree chain qlen = some n →
          n ∈ chain.take 10
          ∧ (hasConvKeyword n = true ∨ lengthPromotion n qlen = true)
          ∧ verifyCommonParent n qlen = true)
      ∧ ((∀ n ∈ chain.take 10,
          ¬((hasConvKeyword n = true ∨ lengthPromotion n qlen = true)
            ∧ verifyCommonParent n qlen = true)) → walkUpDomTree chain qlen = none)
      ∧ (∀ n : DomNode, verifyCommonParent n qlen = true
          ↔ (0 < n.responseCount ∨ (qlen < n.totalTextLen ∧ n.totalTextLen < qlen * 3))) := by
  intro chain qlen
  refine ⟨?_, ?_, ?_, fun n => verify_iff n qlen⟩
  · exact walkUpAux_take qlen chain 0
  · intro n h
    exact walkUpAux_sound qlen chain 0 n h
  · intro h
    exact walkUpAux_none qlen chain 0 h

/-- Witness for `c8_walk_characterization`: a one-node chain whose node has
a conversation class and a response descendant is returned by the walk and
satisfies the characterisation. -/
theorem c8_walk_characterization_witness :
    (⟨["conversation"], 100, 1, 50⟩ : DomNode) ∈
        ([⟨["conversation"], 100, 1, 50⟩] : List DomNode).take 10
    ∧ (hasConvKeyword ⟨["conversation"], 100, 1, 50⟩ = true
        ∨ lengthPromotion ⟨["conversation"], 100, 1, 50⟩ 10 = true)
    ∧ verifyCommonParent ⟨["conversation"], 100, 1, 50⟩ 10 = true :=
  (c8_walk_characterization [⟨["conversation"], 100, 1, 50⟩] 10).2.1
    ⟨["conversation"], 100, 1, 50⟩ (by decide)

/-- Claim C6 (code bug): the phase-3 response-node scan filters candidates
with the hard-coded literal `'What is 2+2?'` (`!text.includes('What is
2+2?')`) instead of the question submitted to the current `ask` call.  For
any other question, an element whose text is exactly the submitted question
passes the filter and is returned (first conjunct); and a perfectly good
answer that merely contains the literal test question is skipped (second
conjunct) even though it does not equal the submitted question. -/
theorem c6_hardcoded_question_eval :
    findResponseWithinParent [["What is the capital of France?".data]]
      = some "What is the capital of France?".data
    ∧ findResponseWithinParent [["The answer to What is 2+2? is four".data]] = none := by
  refine ⟨by decide, by decide⟩
